import Mathlib

/-!
Verification of the MacSCP transfer/protocol core against its
natural-language specification.

The TypeScript sources are shallowly embedded: JS strings are `List Char`,
byte buffers are `List Nat`, the single-threaded event loop is modelled by
atomic steps (each step is the synchronous prefix of a JS callback up to its
first suspension point), and fallible operations return `Option`.

Components embedded below:
 * `TransferManager`  — src/electron/handlers/transfer.ts
 * `EncryptionManager`— src/electron/handlers/encryption.ts
 * `ProfileStore`     — the profile persistence module (getProfiles/saveProfile)
 * `S3Handler`        — src/electron/handlers/s3.ts (putWithProgress)
 * `SSHHandler`       — src/electron/handlers/ssh.ts (getWithProgress, the
                        live, signal-aware handler at lines 815-844)
 * `SyncEngine`       — src/electron/handlers/watcher.ts (compare)
 * `EditBridge`       — the remote:edit-external IPC handler in
                        src/electron/main.ts
-/

/-! ### Shared list helpers -/

/-- Cumulative byte counts reported by a chunked transfer: for chunks
`c₁, c₂, …` starting from accumulator `acc` the reports are
`acc+|c₁|, acc+|c₁|+|c₂|, …`. -/
def cumLens : List (List Nat) → Nat → List Nat
  | [], _ => []
  | c :: cs, acc => (acc + c.length) :: cumLens cs (acc + c.length)

theorem cumLens_getLast? (cs : List (List Nat)) (acc : Nat) (h : cs ≠ []) :
    (cumLens cs acc).getLast? = some (acc + cs.flatten.length) := by
  induction cs generalizing acc with
  | nil => exact absurd rfl h
  | cons c cs ih =>
    cases cs with
    | nil => simp [cumLens]
    | cons d ds =>
      have e : cumLens (c :: d :: ds) acc
          = (acc + c.length) :: cumLens (d :: ds) (acc + c.length) := rfl
      have e2 : cumLens (d :: ds) (acc + c.length)
          = (acc + c.length + d.length)
            :: cumLens ds (acc + c.length + d.length) := rfl
      rw [e, e2, List.getLast?_cons_cons, ← e2, ih (acc + c.length) (by simp)]
      have hlen : (c :: d :: ds).flatten.length
          = c.length + (d :: ds).flatten.length := by
        simp [List.flatten_cons]
      exact congrArg some (by omega)

theorem cumLens_le (cs : List (List Nat)) (acc : Nat) :
    ∀ x ∈ cumLens cs acc, x ≤ acc + cs.flatten.length := by
  induction cs generalizing acc with
  | nil => simp [cumLens]
  | cons c cs ih =>
    intro x hx
    rw [cumLens] at hx
    have hlen : (c :: cs).flatten.length = c.length + cs.flatten.length := by
      simp [List.flatten_cons]
    rcases List.mem_cons.1 hx with h | h
    · omega
    · have := ih (acc + c.length) x h
      omega

/-- Splits a byte list into parts of size `m+1` (the `+1` encodes that the
part size is positive). Mirrors how a multipart upload slices its body. -/
def chunkListP (m : Nat) (l : List Nat) : List (List Nat) :=
  match l with
  | [] => []
  | x :: xs => ((x :: xs).take (m + 1)) :: chunkListP m ((x :: xs).drop (m + 1))
termination_by l.length
decreasing_by simp; omega

theorem chunkListP_flatten (m : Nat) (l : List Nat) :
    (chunkListP m l).flatten = l := by
  induction l using chunkListP.induct m with
  | case1 => simp [chunkListP]
  | case2 x xs ih =>
    rw [chunkListP]
    simp only [List.flatten_cons, ih, List.take_append_drop]

/-- Splitting a list of characters on a separator, mirroring JavaScript's
`String.prototype.split(sep)` for a one-character separator:
`"".split(':') = [""]`, `"a:b".split(':') = ["a","b"]`, etc. -/
def splitOnChar (sep : Char) : List Char → List (List Char)
  | [] => [[]]
  | c :: rest =>
    if c = sep then [] :: splitOnChar sep rest
    else
      match splitOnChar sep rest with
      | [] => [[c]]
      | h :: t => (c :: h) :: t

theorem splitOnChar_ne_nil (sep : Char) (l : List Char) : splitOnChar sep l ≠ [] := by
  cases l with
  | nil => simp [splitOnChar]
  | cons c rest =>
    rw [splitOnChar]
    split
    · simp
    · split <;> simp

theorem splitOnChar_of_not_mem (sep : Char) (l : List Char) (h : sep ∉ l) :
    splitOnChar sep l = [l] := by
  induction l with
  | nil => rfl
  | cons c rest ih =>
    rw [splitOnChar]
    have hc : ¬ c = sep := fun hEq => h (hEq ▸ List.mem_cons_self c rest)
    rw [if_neg hc, ih (fun hm => h (List.mem_cons_of_mem c hm))]

theorem splitOnChar_append (sep : Char) (a rest : List Char) (ha : sep ∉ a) :
    splitOnChar sep (a ++ sep :: rest) = a :: splitOnChar sep rest := by
  induction a with
  | nil => simp [splitOnChar]
  | cons c a ih =>
    have hc : ¬ c = sep := fun hEq => ha (hEq ▸ List.mem_cons_self c a)
    rw [List.cons_append, splitOnChar, if_neg hc,
      ih (fun hm => ha (List.mem_cons_of_mem c hm))]

/-- The split segments together with the separators they replaced account
for the whole string: the segment lengths plus the number of segments equal
the string length plus one. -/
theorem splitOnChar_length_sum (sep : Char) (s : List Char) :
    ((splitOnChar sep s).map List.length).sum + (splitOnChar sep s).length
      = s.length + 1 := by
  induction s with
  | nil => rfl
  | cons c rest ih =>
    rw [splitOnChar]
    by_cases hc : c = sep
    · rw [if_pos hc]
      simp only [List.map_cons, List.sum_cons, List.length_cons,
        List.length_nil]
      omega
    · rw [if_neg hc]
      cases hsp : splitOnChar sep rest with
      | nil => exact absurd hsp (splitOnChar_ne_nil sep rest)
      | cons h t =>
        rw [hsp] at ih
        simp only [List.map_cons, List.sum_cons, List.length_cons] at ih ⊢
        omega

/-- When the first three split segments are all nonempty, the third is
strictly shorter than the whole string (the first two segments and the two
separators also take up room). -/
theorem splitOnChar_third_lt (sep : Char) (s : List Char)
    (h0 : (splitOnChar sep s).getD 0 [] ≠ [])
    (h1 : (splitOnChar sep s).getD 1 [] ≠ [])
    (h2 : (splitOnChar sep s).getD 2 [] ≠ []) :
    ((splitOnChar sep s).getD 2 []).length < s.length := by
  have hsum := splitOnChar_length_sum sep s
  cases hp : splitOnChar sep s with
  | nil =>
    rw [hp] at h0
    simp at h0
  | cons p0 ps =>
    cases ps with
    | nil =>
      rw [hp] at h1
      simp at h1
    | cons p1 ps2 =>
      cases ps2 with
      | nil =>
        rw [hp] at h2
        simp at h2
      | cons p2 rest =>
        rw [hp] at hsum h0 h1 h2
        simp only [List.getD_cons_zero, List.getD_cons_succ] at h0 h1 h2 ⊢
        have hl0 : 1 ≤ p0.length := List.length_pos.2 h0
        have hl1 : 1 ≤ p1.length := List.length_pos.2 h1
        simp only [List.map_cons, List.sum_cons, List.length_cons] at hsum
        omega

/-! ### TransferManager (src/electron/handlers/transfer.ts)

The queue is a list of tasks; the scheduler state carries the
`activeTasks` counter, the `activeControllers` map (modelled as the list of
task ids holding a registered `AbortController`), and the ghost list
`inflight` of ids whose dispatcher promise has not settled yet.  `persisted`
is the last snapshot written by `saveQueue`.

Atomicity: JavaScript is single threaded, so each model step is the
synchronous prefix of a callback up to its first `await`.  In particular
`runTask`'s prefix (status flip to `active`, counter increment, controller
registration) runs atomically inside `processQueue`'s loop, and the
`catch`/`finally` continuation of a settled dispatcher promise (including
its trailing `processQueue`) is one atomic step.  `controller.abort()`
inside `cancelTask` rejects the in-flight promise synchronously, and the
rejection continuation runs as a microtask before any other IPC event, so
the model folds it into the cancel step. Progress callbacks only touch
`transferredSize`/`speed`/`progress` and are not needed by the claims
settled here, so they are not modelled as events. -/

namespace TransferManager

inductive TStatus
  | pending | active | completed | failed | cancelled | interrupted
deriving DecidableEq, BEq, Repr

structure Task where
  id : Nat
  status : TStatus
  transferredSize : Nat
  totalSize : Nat
  progress : Nat
  speed : Nat
  retryCount : Nat
  error : Option String
deriving DecidableEq, Repr

def maxConcurrent : Nat := 3

def maxRetries : Nat := 3

/-- `t.status === 'pending' || t.status === 'interrupted'` — the predicate
`processQueue` uses to find the next task to run. -/
def isReady (t : Task) : Bool :=
  t.status = TStatus.pending || t.status = TStatus.interrupted

structure QState where
  queue : List Task
  activeTasks : Nat
  controllers : List Nat
  inflight : List Nat
  persisted : List Task
deriving DecidableEq, Repr

/-- `this.saveQueue()` — snapshots the in-memory queue to disk. -/
def saveQueue (s : QState) : QState := { s with persisted := s.queue }

/-- In-place mutation of the task object with the given id (the source
mutates the found task by reference; ids are unique). -/
def updateTask (q : List Task) (id : Nat) (f : Task → Task) : List Task :=
  q.map fun t => if t.id = id then f t else t

/-- The synchronous prefix of `runTask`: `activeTasks++`, status := active,
controller registration.  (`startOffset` is read here but only used by the
backend call; see `SSHHandler.getWithProgress`.) -/
def promote (s : QState) (id : Nat) : QState :=
  { s with
    queue := updateTask s.queue id fun t => { t with status := TStatus.active }
    activeTasks := s.activeTasks + 1
    controllers := s.controllers ++ [id]
    inflight := s.inflight ++ [id] }

/-- `processQueue`: while a slot is free, promote the first task whose
status is pending or interrupted.  The fuel is the number of ready tasks,
which strictly decreases at every promotion. -/
def processQueueFuel : Nat → QState → QState
  | 0, s => s
  | fuel + 1, s =>
    if s.activeTasks ≥ maxConcurrent then s
    else
      match s.queue.find? isReady with
      | none => s
      | some t => processQueueFuel fuel (promote s t.id)

def processQueue (s : QState) : QState :=
  processQueueFuel (s.queue.countP isReady) s

/-- `addTask`: append a fresh pending task, persist, kick the scheduler.
The id comes from `crypto.randomUUID()`; the model takes it as an argument
and ignores the call when it would collide (UUIDs never do). -/
def addTask (s : QState) (newId : Nat) (total : Nat) : QState :=
  if s.queue.any (fun t => t.id = newId) then s
  else
    let newTask : Task :=
      { id := newId, status := TStatus.pending, transferredSize := 0,
        totalSize := total, progress := 0, speed := 0, retryCount := 0,
        error := none }
    processQueue (saveQueue { s with queue := s.queue ++ [newTask] })

/-- The `finally` block of `runTask` (without its trailing `processQueue`):
drop the controller, `activeTasks--`, persist. -/
def finallyStep (s : QState) (id : Nat) : QState :=
  saveQueue { s with
    controllers := s.controllers.erase id
    activeTasks := s.activeTasks - 1
    inflight := s.inflight.erase id }

/-- Success continuation of the dispatcher promise plus the `finally`. -/
def settleOkStep (s : QState) (id : Nat) : QState :=
  finallyStep
    { s with queue := updateTask s.queue id fun t =>
        { t with status := TStatus.completed, progress := 100,
                 retryCount := 0, speed := 0 } } id

/-- The retry annotation `Retry ${k}/${maxRetries}: ${message}`. -/
def retryText (k : Nat) (msg : String) : String :=
  "Retry " ++ toString k ++ "/" ++ toString maxRetries ++ ": " ++ msg

/-- The task mutation performed by `runTask`'s `catch` block: increment the
retry counter; re-queue as pending when `retryCount ≤ 3`, otherwise mark
failed and zero the speed.  Note the source never looks at the task's
current status here. -/
def errUpdate (msg : String) (t : Task) : Task :=
  let rc := t.retryCount + 1
  if rc ≤ maxRetries then
    { t with retryCount := rc, status := TStatus.pending,
             error := some (retryText rc msg) }
  else
    { t with retryCount := rc, status := TStatus.failed,
             error := some msg, speed := 0 }

/-- `catch` continuation of the dispatcher promise plus the `finally`. -/
def settleErrStep (s : QState) (id : Nat) (msg : String) : QState :=
  finallyStep { s with queue := updateTask s.queue id (errUpdate msg) } id

/-- `cancelTask`, the synchronous handler body: if the task exists, set its
status to `cancelled`, abort and drop its controller, persist. -/
def cancelTask (s : QState) (id : Nat) : QState :=
  if s.queue.any (fun t => t.id = id) then
    saveQueue { s with
      queue := updateTask s.queue id fun t => { t with status := TStatus.cancelled }
      controllers := s.controllers.erase id }
  else s

/-- `clearCompleted`: keep only tasks that are not completed/failed/
cancelled/interrupted. -/
def clearCompleted (s : QState) : QState :=
  saveQueue { s with queue := s.queue.filter fun t =>
    t.status ≠ TStatus.completed ∧ t.status ≠ TStatus.failed ∧
    t.status ≠ TStatus.cancelled ∧ t.status ≠ TStatus.interrupted }

/-- `retryTask`: flip a failed/cancelled/interrupted task back to pending. -/
def retryTask (s : QState) (id : Nat) : QState :=
  match s.queue.find? (fun t => t.id = id) with
  | some t =>
    if t.status = TStatus.failed ∨ t.status = TStatus.cancelled ∨
        t.status = TStatus.interrupted then
      processQueue (saveQueue { s with
        queue := updateTask s.queue id fun t =>
          { t with status := TStatus.pending, error := none } })
    else s
  | none => s

/-- `retryAll`. -/
def retryAll (s : QState) : QState :=
  processQueue (saveQueue { s with queue := s.queue.map fun t =>
    if t.status = TStatus.failed ∨ t.status = TStatus.cancelled ∨
        t.status = TStatus.interrupted then
      { t with status := TStatus.pending, error := none }
    else t })

/-- `loadQueue` at startup: previously active or pending tasks reload as
`interrupted`, speeds are zeroed, and interrupted work is auto-resumed
(`processQueue` is the identity when nothing is ready, so it can be applied
unconditionally). -/
def loadQueue (saved : List Task) : QState :=
  processQueue
    { queue := saved.map fun t =>
        if t.status = TStatus.active ∨ t.status = TStatus.pending then
          { t with status := TStatus.interrupted, speed := 0 }
        else { t with speed := 0 }
      activeTasks := 0, controllers := [], inflight := [], persisted := saved }

/-- External events driving the queue.  A `settleOk`/`settleErr` event is
the settlement of the dispatcher promise of an in-flight task (it is a
no-op for ids with no pending promise).  `cancel` folds in the synchronous
abort rejection of the task's in-flight promise, which runs as a microtask
immediately after the handler body (see the atomicity note above). -/
inductive QEvent
  | add (newId total : Nat)
  | settleOk (id : Nat)
  | settleErr (id : Nat) (msg : String)
  | cancel (id : Nat)
  | retryOne (id : Nat)
  | retryAll
  | clearCompleted

def applyEvent (s : QState) : QEvent → QState
  | .add newId total => addTask s newId total
  | .settleOk id =>
    if id ∈ s.inflight then processQueue (settleOkStep s id) else s
  | .settleErr id msg =>
    if id ∈ s.inflight then processQueue (settleErrStep s id msg) else s
  | .cancel id =>
    if s.queue.any (fun t => t.id = id) ∧ id ∈ s.controllers then
      processQueue (settleErrStep (cancelTask s id) id "Aborted")
    else cancelTask s id
  | .retryOne id => retryTask s id
  | .retryAll => retryAll s
  | .clearCompleted => clearCompleted s

/-- States reachable from a startup load of a well-formed persisted queue
(task ids on disk are distinct: the app writes them from `randomUUID`). -/
inductive Reachable : QState → Prop
  | init (saved : List Task) (h : (saved.map Task.id).Nodup) :
      Reachable (loadQueue saved)
  | step (s : QState) (e : QEvent) : Reachable s → Reachable (applyEvent s e)

def isActive (t : Task) : Bool := t.status = TStatus.active

def countActive (q : List Task) : Nat := q.countP isActive

/-! #### Structural lemmas about `updateTask` -/

theorem updateTask_map_id (q : List Task) (id : Nat) (f : Task → Task)
    (hf : ∀ t, (f t).id = t.id) :
    (updateTask q id f).map Task.id = q.map Task.id := by
  unfold updateTask
  rw [List.map_map]
  refine List.map_congr_left fun t _ => ?_
  by_cases h : t.id = id <;> simp [h, hf]

theorem mem_updateTask_of_ne {q : List Task} {t : Task} {id : Nat}
    (f : Task → Task) (h : t ∈ q) (hne : ¬ t.id = id) :
    t ∈ updateTask q id f := by
  unfold updateTask
  have : (fun x => if x.id = id then f x else x) t = t := by simp [hne]
  exact this ▸ List.mem_map_of_mem _ h

theorem mem_updateTask_self {q : List Task} {t : Task} {id : Nat}
    (f : Task → Task) (h : t ∈ q) (hid : t.id = id) :
    f t ∈ updateTask q id f := by
  unfold updateTask
  have : (fun x => if x.id = id then f x else x) t = f t := by simp [hid]
  exact this ▸ List.mem_map_of_mem _ h

theorem mem_updateTask {q : List Task} {t' : Task} {id : Nat} {f : Task → Task}
    (h : t' ∈ updateTask q id f) :
    ∃ t ∈ q, t' = if t.id = id then f t else t := by
  unfold updateTask at h
  obtain ⟨t, ht, rfl⟩ := List.mem_map.1 h
  exact ⟨t, ht, rfl⟩

theorem updateTask_updateTask (q : List Task) (id : Nat) (f g : Task → Task)
    (hf : ∀ t, (f t).id = t.id) :
    updateTask (updateTask q id f) id g = updateTask q id fun t => g (f t) := by
  unfold updateTask
  rw [List.map_map]
  refine List.map_congr_left fun t _ => ?_
  by_cases h : t.id = id <;> simp [h, hf]

theorem countP_updateTask_le (q : List Task) (id : Nat) (f : Task → Task)
    (p : Task → Bool) (hf : ∀ x, p (f x) = false) :
    (updateTask q id f).countP p ≤ q.countP p := by
  induction q with
  | nil => simp [updateTask]
  | cons x rest ih =>
    have hrec : updateTask (x :: rest) id f
        = (if x.id = id then f x else x) :: updateTask rest id f := rfl
    rw [hrec, List.countP_cons, List.countP_cons]
    have htail := ih
    by_cases h : x.id = id
    · simp only [h, if_pos, hf]
      cases hpx : p x <;> simp <;> omega
    · simp only [if_neg h]
      omega

theorem countP_updateTask_lt {q : List Task} {t : Task} {id : Nat}
    (f : Task → Task) (p : Task → Bool) (hf : ∀ x, p (f x) = false)
    (ht : t ∈ q) (hp : p t = true) (hid : t.id = id) :
    (updateTask q id f).countP p < q.countP p := by
  induction q with
  | nil => cases ht
  | cons x rest ih =>
    have hrec : updateTask (x :: rest) id f
        = (if x.id = id then f x else x) :: updateTask rest id f := rfl
    rw [hrec, List.countP_cons, List.countP_cons]
    rcases List.mem_cons.1 ht with rfl | hmem
    · rw [if_pos hid, hf, hp]
      have := countP_updateTask_le rest id f p hf
      simp
      omega
    · have htail := ih hmem
      by_cases h : x.id = id
      · rw [if_pos h, hf]
        cases hpx : p x <;> simp <;> omega
      · rw [if_neg h]
        omega

/-! #### The scheduler invariant -/

/-- The structural part of the invariant (everything except saturation). -/
structure Inv0 (s : QState) : Prop where
  ids_nodup : (s.queue.map Task.id).Nodup
  inflight_nodup : s.inflight.Nodup
  controllers_eq : s.controllers = s.inflight
  active_count : s.activeTasks = s.inflight.length
  inflight_active : ∀ id ∈ s.inflight,
    ∃ t ∈ s.queue, t.id = id ∧ t.status = TStatus.active
  active_inflight : ∀ t ∈ s.queue, t.status = TStatus.active → t.id ∈ s.inflight
  cap : s.activeTasks ≤ maxConcurrent

/-- The full invariant: additionally, the scheduler never rests with a free
slot and a ready task (saturation). -/
def Inv (s : QState) : Prop :=
  Inv0 s ∧ (s.activeTasks < maxConcurrent → ∀ t ∈ s.queue, isReady t = false)

theorem task_eq_of_id_eq {q : List Task} (hq : (q.map Task.id).Nodup)
    {t t' : Task} (ht : t ∈ q) (ht' : t' ∈ q) (h : t.id = t'.id) : t = t' :=
  List.inj_on_of_nodup_map hq ht ht' h

theorem isReady_ne_active {t : Task} (h : isReady t = true) :
    t.status ≠ TStatus.active := by
  unfold isReady at h
  intro hs
  rw [hs] at h
  simp at h

theorem promote_inv0 {s : QState} (hs : Inv0 s) {t : Task}
    (hfind : s.queue.find? isReady = some t)
    (hlt : s.activeTasks < maxConcurrent) :
    Inv0 (promote s t.id) := by
  have htmem : t ∈ s.queue := List.mem_of_find?_eq_some hfind
  have htready : isReady t = true := List.find?_some hfind
  have htid : t.id ∉ s.inflight := by
    intro hin
    obtain ⟨t', ht'mem, ht'id, ht'act⟩ := hs.inflight_active t.id hin
    have heq : t' = t := task_eq_of_id_eq hs.ids_nodup ht'mem htmem ht'id
    exact isReady_ne_active htready (heq ▸ ht'act)
  refine ⟨?_, ?_, ?_, ?_, ?_, ?_, ?_⟩
  · show ((updateTask s.queue t.id fun x =>
      { x with status := TStatus.active }).map Task.id).Nodup
    rw [updateTask_map_id s.queue t.id
      (fun x => { x with status := TStatus.active }) (fun _ => rfl)]
    exact hs.ids_nodup
  · rw [show (promote s t.id).inflight = s.inflight ++ [t.id] from rfl,
      List.nodup_append]
    exact ⟨hs.inflight_nodup, List.nodup_singleton _,
      fun a ha hb => by simp at hb; exact htid (hb ▸ ha)⟩
  · show s.controllers ++ [t.id] = s.inflight ++ [t.id]
    rw [hs.controllers_eq]
  · show s.activeTasks + 1 = (s.inflight ++ [t.id]).length
    simp [hs.active_count]
  · intro id hid
    rcases List.mem_append.1 hid with hold | hnew
    · obtain ⟨t', ht'mem, ht'id, ht'act⟩ := hs.inflight_active id hold
      refine ⟨t', mem_updateTask_of_ne _ ht'mem ?_, ht'id, ht'act⟩
      intro hbad
      exact htid ((hbad ▸ ht'id : t.id = id) ▸ hold)
    · simp at hnew
      subst hnew
      exact ⟨{ t with status := TStatus.active },
        mem_updateTask_self _ htmem rfl, rfl, rfl⟩
  · intro t'' hmem hact
    obtain ⟨t₀, ht₀, heq⟩ := mem_updateTask hmem
    by_cases h : t₀.id = t.id
    · rw [if_pos h] at heq
      rw [heq]
      exact List.mem_append.2 (Or.inr (by simp [h]))
    · rw [if_neg h] at heq
      rw [heq] at hact ⊢
      exact List.mem_append.2 (Or.inl (hs.active_inflight t₀ ht₀ hact))
  · show s.activeTasks + 1 ≤ maxConcurrent
    omega

theorem isReady_active_false (t : Task) :
    isReady { t with status := TStatus.active } = false := rfl

theorem processQueueFuel_inv0 (fuel : Nat) {s : QState} (hs : Inv0 s) :
    Inv0 (processQueueFuel fuel s) := by
  induction fuel generalizing s with
  | zero => exact hs
  | succ fuel ih =>
    rw [processQueueFuel]
    by_cases hge : s.activeTasks ≥ maxConcurrent
    · rw [if_pos hge]; exact hs
    · rw [if_neg hge]
      cases hf : s.queue.find? isReady with
      | none => exact hs
      | some t => exact ih (promote_inv0 hs hf (by omega))

theorem processQueueFuel_sat (fuel : Nat) {s : QState}
    (hfuel : s.queue.countP isReady ≤ fuel) :
    (processQueueFuel fuel s).activeTasks < maxConcurrent →
      ∀ t ∈ (processQueueFuel fuel s).queue, isReady t = false := by
  induction fuel generalizing s with
  | zero =>
    intro _ t ht
    have hz : s.queue.countP isReady = 0 := Nat.le_zero.1 hfuel
    exact Bool.eq_false_iff.2 ((List.countP_eq_zero.1 hz) t ht)
  | succ fuel ih =>
    rw [processQueueFuel]
    by_cases hge : s.activeTasks ≥ maxConcurrent
    · rw [if_pos hge]
      intro hlt
      omega
    · rw [if_neg hge]
      cases hf : s.queue.find? isReady with
      | none =>
        intro _ t ht
        exact Bool.eq_false_iff.2 (List.find?_eq_none.1 hf t ht)
      | some t =>
        have htmem : t ∈ s.queue := List.mem_of_find?_eq_some hf
        have htready : isReady t = true := List.find?_some hf
        have hdec : (promote s t.id).queue.countP isReady ≤ fuel := by
          have := countP_updateTask_lt
            (fun x => { x with status := TStatus.active }) isReady
            (fun x => isReady_active_false x) htmem htready rfl
          exact Nat.lt_succ_iff.1 (Nat.lt_of_lt_of_le this hfuel)
        exact ih hdec

theorem inv_processQueue {s : QState} (hs : Inv0 s) : Inv (processQueue s) :=
  ⟨processQueueFuel_inv0 _ hs, processQueueFuel_sat _ (Nat.le_refl _)⟩

/-- Invariant preservation for the `catch`/success continuation followed by
the `finally` block, for any per-task update `f` that keeps the id and does
not produce an `active` status. -/
theorem settle_inv0 {s : QState} (hs : Inv0 s) {id : Nat}
    (hid : id ∈ s.inflight) (f : Task → Task)
    (hfid : ∀ t, (f t).id = t.id)
    (hfact : ∀ t, (f t).status ≠ TStatus.active) :
    Inv0 (finallyStep { s with queue := updateTask s.queue id f } id) := by
  refine ⟨?_, ?_, ?_, ?_, ?_, ?_, ?_⟩
  · show ((updateTask s.queue id f).map Task.id).Nodup
    rw [updateTask_map_id s.queue id f hfid]
    exact hs.ids_nodup
  · exact hs.inflight_nodup.erase id
  · show s.controllers.erase id = s.inflight.erase id
    rw [hs.controllers_eq]
  · show s.activeTasks - 1 = (s.inflight.erase id).length
    rw [hs.active_count, List.length_erase_of_mem hid]
  · intro id' hid'
    have hmem := (hs.inflight_nodup.mem_erase_iff.1 hid')
    obtain ⟨t', ht'mem, ht'id, ht'act⟩ := hs.inflight_active id' hmem.2
    refine ⟨t', mem_updateTask_of_ne f ht'mem ?_, ht'id, ht'act⟩
    rw [ht'id]
    exact hmem.1
  · intro t'' hmem hact
    obtain ⟨t₀, ht₀, heq⟩ := mem_updateTask hmem
    by_cases h : t₀.id = id
    · rw [if_pos h] at heq
      rw [heq] at hact
      exact absurd hact (hfact t₀)
    · rw [if_neg h] at heq
      rw [heq] at hact ⊢
      exact (List.mem_erase_of_ne h).2 (hs.active_inflight t₀ ht₀ hact)
  · show s.activeTasks - 1 ≤ maxConcurrent
    have := hs.cap
    omega

theorem settleOk_inv0 {s : QState} (hs : Inv0 s) {id : Nat}
    (hid : id ∈ s.inflight) : Inv0 (settleOkStep s id) :=
  settle_inv0 hs hid _ (fun _ => rfl) (fun _ => by simp)

theorem errUpdate_id (msg : String) (t : Task) : (errUpdate msg t).id = t.id := by
  unfold errUpdate
  dsimp only
  split <;> rfl

theorem errUpdate_ne_active (msg : String) (t : Task) :
    (errUpdate msg t).status ≠ TStatus.active := by
  unfold errUpdate
  dsimp only
  split <;> simp

theorem settleErr_inv0 {s : QState} (hs : Inv0 s) {id : Nat}
    (hid : id ∈ s.inflight) (msg : String) : Inv0 (settleErrStep s id msg) :=
  settle_inv0 hs hid _ (errUpdate_id msg) (errUpdate_ne_active msg)

/-- Invariant preservation for a cancel of an in-flight task, including the
synchronous abort rejection it triggers (the `catch`/`finally` microtask). -/
theorem cancel_abort_inv0 {s : QState} (hs : Inv0 s) {id : Nat}
    (hid : id ∈ s.controllers) (msg : String)
    (hfound : s.queue.any (fun t => t.id = id) = true) :
    Inv0 (settleErrStep (cancelTask s id) id msg) := by
  have hidin : id ∈ s.inflight := hs.controllers_eq ▸ hid
  have hctrl_nodup : s.controllers.Nodup := hs.controllers_eq ▸ hs.inflight_nodup
  have hstate : settleErrStep (cancelTask s id) id msg =
      { queue := updateTask s.queue id
          (fun t => errUpdate msg { t with status := TStatus.cancelled })
        activeTasks := s.activeTasks - 1
        controllers := s.controllers.erase id
        inflight := s.inflight.erase id
        persisted := updateTask s.queue id
          (fun t => errUpdate msg { t with status := TStatus.cancelled }) } := by
    unfold cancelTask
    rw [if_pos hfound]
    unfold settleErrStep finallyStep saveQueue
    dsimp only
    rw [updateTask_updateTask s.queue id
        (fun t => { t with status := TStatus.cancelled }) (errUpdate msg)
        (fun _ => rfl),
      List.erase_of_not_mem (hctrl_nodup.not_mem_erase)]
  rw [hstate]
  refine ⟨?_, ?_, ?_, ?_, ?_, ?_, ?_⟩
  · show ((updateTask s.queue id fun t =>
      errUpdate msg { t with status := TStatus.cancelled }).map Task.id).Nodup
    rw [updateTask_map_id s.queue id
      (fun t => errUpdate msg { t with status := TStatus.cancelled })
      (fun t => errUpdate_id msg _)]
    exact hs.ids_nodup
  · exact hs.inflight_nodup.erase id
  · show s.controllers.erase id = s.inflight.erase id
    rw [hs.controllers_eq]
  · show s.activeTasks - 1 = (s.inflight.erase id).length
    rw [hs.active_count, List.length_erase_of_mem hidin]
  · intro id' hid'
    have hmem := hs.inflight_nodup.mem_erase_iff.1 hid'
    obtain ⟨t', ht'mem, ht'id, ht'act⟩ := hs.inflight_active id' hmem.2
    have hne : ¬ t'.id = id := by rw [ht'id]; exact hmem.1
    exact ⟨t', mem_updateTask_of_ne _ ht'mem hne, ht'id, ht'act⟩
  · intro t'' hmem hact
    obtain ⟨t₀, ht₀, heq⟩ := mem_updateTask hmem
    by_cases h : t₀.id = id
    · rw [if_pos h] at heq
      rw [heq] at hact
      exact absurd hact (errUpdate_ne_active msg _)
    · rw [if_neg h] at heq
      rw [heq] at hact ⊢
      exact (List.mem_erase_of_ne h).2 (hs.active_inflight t₀ ht₀ hact)
  · show s.activeTasks - 1 ≤ maxConcurrent
    have := hs.cap
    omega

theorem addTask_inv {s : QState} (hs : Inv s) (newId total : Nat) :
    Inv (addTask s newId total) := by
  unfold addTask
  by_cases hdup : s.queue.any (fun t => t.id = newId) = true
  · rw [if_pos hdup]
    exact hs
  · rw [if_neg hdup]
    have hfresh : ∀ t ∈ s.queue, ¬ t.id = newId := by
      intro t ht
      intro h
      exact hdup (List.any_eq_true.2 ⟨t, ht, by simp [h]⟩)
    apply inv_processQueue
    refine ⟨?_, hs.1.inflight_nodup, hs.1.controllers_eq, hs.1.active_count,
      ?_, ?_, hs.1.cap⟩
    · show ((s.queue ++ [_]).map Task.id).Nodup
      rw [List.map_append]
      rw [List.nodup_append]
      refine ⟨hs.1.ids_nodup, List.nodup_singleton _, ?_⟩
      intro a ha hb
      simp at hb
      obtain ⟨t, ht, hid⟩ := List.mem_map.1 ha
      exact hfresh t ht (hid.trans hb)
    · intro id hid
      obtain ⟨t', ht'mem, ht'id, ht'act⟩ := hs.1.inflight_active id hid
      exact ⟨t', List.mem_append_left _ ht'mem, ht'id, ht'act⟩
    · intro t'' hmem hact
      rcases List.mem_append.1 hmem with hold | hnew
      · exact hs.1.active_inflight t'' hold hact
      · simp at hnew
        rw [hnew] at hact
        exact absurd hact (by simp)

theorem isReady_cancelled_false (t : Task) :
    isReady { t with status := TStatus.cancelled } = false := rfl

theorem cancelTask_inv {s : QState} (hs : Inv s) {id : Nat}
    (hnc : id ∉ s.controllers) : Inv (cancelTask s id) := by
  unfold cancelTask
  by_cases hfound : s.queue.any (fun t => t.id = id) = true
  · rw [if_pos hfound]
    have hni : id ∉ s.inflight := hs.1.controllers_eq ▸ hnc
    constructor
    · refine ⟨?_, hs.1.inflight_nodup, ?_, hs.1.active_count, ?_, ?_, hs.1.cap⟩
      · show ((updateTask s.queue id fun t =>
          { t with status := TStatus.cancelled }).map Task.id).Nodup
        rw [updateTask_map_id s.queue id
          (fun t => { t with status := TStatus.cancelled }) (fun _ => rfl)]
        exact hs.1.ids_nodup
      · show s.controllers.erase id = s.inflight
        rw [List.erase_of_not_mem hnc, hs.1.controllers_eq]
      · intro id' hid'
        obtain ⟨t', ht'mem, ht'id, ht'act⟩ := hs.1.inflight_active id' hid'
        have hne : ¬ t'.id = id := by
          rw [ht'id]
          intro h
          exact hni (h ▸ hid')
        exact ⟨t', mem_updateTask_of_ne _ ht'mem hne, ht'id, ht'act⟩
      · intro t'' hmem hact
        obtain ⟨t₀, ht₀, heq⟩ := mem_updateTask hmem
        by_cases h : t₀.id = id
        · rw [if_pos h] at heq
          rw [heq] at hact
          exact absurd hact (by simp)
        · rw [if_neg h] at heq
          rw [heq] at hact ⊢
          exact hs.1.active_inflight t₀ ht₀ hact
    · intro hlt t'' hmem
      obtain ⟨t₀, ht₀, heq⟩ := mem_updateTask hmem
      by_cases h : t₀.id = id
      · rw [if_pos h] at heq
        rw [heq]
        exact isReady_cancelled_false t₀
      · rw [if_neg h] at heq
        rw [heq]
        exact hs.2 hlt t₀ ht₀
  · rw [if_neg hfound]
    exact hs

theorem retryTask_inv {s : QState} (hs : Inv s) (id : Nat) :
    Inv (retryTask s id) := by
  unfold retryTask
  cases hf : s.queue.find? (fun t => t.id = id) with
  | none => exact hs
  | some t =>
    dsimp only
    by_cases hst : t.status = TStatus.failed ∨ t.status = TStatus.cancelled ∨
        t.status = TStatus.interrupted
    · rw [if_pos hst]
      have htmem : t ∈ s.queue := List.mem_of_find?_eq_some hf
      have htid : t.id = id := by
        have := List.find?_some hf
        simpa using this
      have hni : id ∉ s.inflight := by
        intro hin
        obtain ⟨t', ht'mem, ht'id, ht'act⟩ := hs.1.inflight_active id hin
        have : t' = t :=
          task_eq_of_id_eq hs.1.ids_nodup ht'mem htmem (ht'id.trans htid.symm)
        rw [this] at ht'act
        rcases hst with h | h | h <;> rw [h] at ht'act <;> cases ht'act
      apply inv_processQueue
      refine ⟨?_, hs.1.inflight_nodup, hs.1.controllers_eq, hs.1.active_count,
        ?_, ?_, hs.1.cap⟩
      · show ((updateTask s.queue id fun t =>
          { t with status := TStatus.pending, error := none }).map Task.id).Nodup
        rw [updateTask_map_id s.queue id
          (fun t => { t with status := TStatus.pending, error := none })
          (fun _ => rfl)]
        exact hs.1.ids_nodup
      · intro id' hid'
        obtain ⟨t', ht'mem, ht'id, ht'act⟩ := hs.1.inflight_active id' hid'
        have hne : ¬ t'.id = id := by
          rw [ht'id]
          intro h
          exact hni (h ▸ hid')
        exact ⟨t', mem_updateTask_of_ne _ ht'mem hne, ht'id, ht'act⟩
      · intro t'' hmem hact
        obtain ⟨t₀, ht₀, heq⟩ := mem_updateTask hmem
        by_cases h : t₀.id = id
        · rw [if_pos h] at heq
          rw [heq] at hact
          exact absurd hact (by simp)
        · rw [if_neg h] at heq
          rw [heq] at hact ⊢
          exact hs.1.active_inflight t₀ ht₀ hact
    · rw [if_neg hst]
      exact hs

theorem retryAll_inv {s : QState} (hs : Inv s) : Inv (retryAll s) := by
  unfold retryAll
  apply inv_processQueue
  refine ⟨?_, hs.1.inflight_nodup, hs.1.controllers_eq, hs.1.active_count,
    ?_, ?_, hs.1.cap⟩
  · show ((s.queue.map _).map Task.id).Nodup
    rw [List.map_map]
    have : (Task.id ∘ fun t =>
        if t.status = TStatus.failed ∨ t.status = TStatus.cancelled ∨
            t.status = TStatus.interrupted then
          { t with status := TStatus.pending, error := none }
        else t) = Task.id := by
      funext t
      by_cases h : t.status = TStatus.failed ∨ t.status = TStatus.cancelled ∨
          t.status = TStatus.interrupted <;> simp [h]
    rw [this]
    exact hs.1.ids_nodup
  · intro id' hid'
    obtain ⟨t', ht'mem, ht'id, ht'act⟩ := hs.1.inflight_active id' hid'
    have hcond : ¬ (t'.status = TStatus.failed ∨ t'.status = TStatus.cancelled ∨
        t'.status = TStatus.interrupted) := by
      rw [ht'act]
      simp
    refine ⟨t', ?_, ht'id, ht'act⟩
    have himg : (if t'.status = TStatus.failed ∨ t'.status = TStatus.cancelled ∨
        t'.status = TStatus.interrupted then
          { t' with status := TStatus.pending, error := none }
        else t') = t' := if_neg hcond
    exact himg ▸ List.mem_map_of_mem _ ht'mem
  · intro t'' hmem hact
    obtain ⟨t₀, ht₀, heq⟩ := List.mem_map.1 hmem
    by_cases h : t₀.status = TStatus.failed ∨ t₀.status = TStatus.cancelled ∨
        t₀.status = TStatus.interrupted
    · rw [if_pos h] at heq
      rw [← heq] at hact
      exact absurd hact (by simp)
    · rw [if_neg h] at heq
      rw [← heq] at hact ⊢
      exact hs.1.active_inflight t₀ ht₀ hact

theorem clearCompleted_inv {s : QState} (hs : Inv s) :
    Inv (clearCompleted s) := by
  unfold clearCompleted
  constructor
  · refine ⟨?_, hs.1.inflight_nodup, hs.1.controllers_eq, hs.1.active_count,
      ?_, ?_, hs.1.cap⟩
    · show ((s.queue.filter _).map Task.id).Nodup
      exact hs.1.ids_nodup.sublist (List.Sublist.map _ (List.filter_sublist _))
    · intro id' hid'
      obtain ⟨t', ht'mem, ht'id, ht'act⟩ := hs.1.inflight_active id' hid'
      refine ⟨t', List.mem_filter.2 ⟨ht'mem, ?_⟩, ht'id, ht'act⟩
      rw [ht'act]
      simp
    · intro t'' hmem hact
      exact hs.1.active_inflight t'' (List.mem_filter.1 hmem).1 hact
  · intro hlt t'' hmem
    exact hs.2 hlt t'' (List.mem_filter.1 hmem).1

theorem loadQueue_inv (saved : List Task) (h : (saved.map Task.id).Nodup) :
    Inv (loadQueue saved) := by
  unfold loadQueue
  apply inv_processQueue
  refine ⟨?_, List.nodup_nil, rfl, rfl, ?_, ?_, by simp [maxConcurrent]⟩
  · show ((saved.map _).map Task.id).Nodup
    rw [List.map_map]
    have : (Task.id ∘ fun t =>
        if t.status = TStatus.active ∨ t.status = TStatus.pending then
          { t with status := TStatus.interrupted, speed := 0 }
        else { t with speed := 0 }) = Task.id := by
      funext t
      by_cases hc : t.status = TStatus.active ∨ t.status = TStatus.pending <;>
        simp [hc]
    rw [this]
    exact h
  · intro id hid
    cases hid
  · intro t'' hmem hact
    obtain ⟨t₀, ht₀, heq⟩ := List.mem_map.1 hmem
    by_cases hc : t₀.status = TStatus.active ∨ t₀.status = TStatus.pending
    · rw [if_pos hc] at heq
      rw [← heq] at hact
      exact absurd hact (by simp)
    · rw [if_neg hc] at heq
      rw [← heq] at hact
      exact absurd (Or.inl hact) (by
        show ¬ (t₀.status = TStatus.active ∨ t₀.status = TStatus.pending)
        exact hc)

theorem applyEvent_inv {s : QState} (hs : Inv s) (e : QEvent) :
    Inv (applyEvent s e) := by
  cases e with
  | add newId total => exact addTask_inv hs newId total
  | settleOk id =>
    show Inv (if id ∈ s.inflight then processQueue (settleOkStep s id) else s)
    by_cases hid : id ∈ s.inflight
    · rw [if_pos hid]
      exact inv_processQueue (settleOk_inv0 hs.1 hid)
    · rw [if_neg hid]
      exact hs
  | settleErr id msg =>
    show Inv (if id ∈ s.inflight then processQueue (settleErrStep s id msg) else s)
    by_cases hid : id ∈ s.inflight
    · rw [if_pos hid]
      exact inv_processQueue (settleErr_inv0 hs.1 hid msg)
    · rw [if_neg hid]
      exact hs
  | cancel id =>
    show Inv (if s.queue.any (fun t => t.id = id) ∧ id ∈ s.controllers then
      processQueue (settleErrStep (cancelTask s id) id "Aborted")
      else cancelTask s id)
    by_cases hcond : s.queue.any (fun t => t.id = id) = true ∧ id ∈ s.controllers
    · rw [if_pos ⟨hcond.1, hcond.2⟩]
      exact inv_processQueue (cancel_abort_inv0 hs.1 hcond.2 "Aborted" hcond.1)
    · rw [if_neg (by simpa using hcond)]
      by_cases hc : id ∈ s.controllers
      · have hnf : ¬ s.queue.any (fun t => t.id = id) = true := by
          intro h
          exact hcond ⟨h, hc⟩
        unfold cancelTask
        rw [if_neg hnf]
        exact hs
      · exact cancelTask_inv hs hc
  | retryOne id => exact retryTask_inv hs id
  | retryAll => exact retryAll_inv hs
  | clearCompleted => exact clearCompleted_inv hs

/-- Every reachable scheduler state satisfies the invariant. -/
theorem reachable_inv {s : QState} (h : Reachable s) : Inv s := by
  induction h with
  | init saved hnd => exact loadQueue_inv saved hnd
  | step s e _ ih => exact applyEvent_inv ih e

theorem countActive_le_activeTasks {s : QState} (hs : Inv0 s) :
    countActive s.queue ≤ s.activeTasks := by
  have h1 : countActive s.queue = (s.queue.filter isActive).length :=
    List.countP_eq_length_filter _ _
  have hsub : ((s.queue.filter isActive).map Task.id) ⊆ s.inflight := by
    intro id hid
    obtain ⟨t, ht, rfl⟩ := List.mem_map.1 hid
    have hmem := List.mem_filter.1 ht
    have hact : t.status = TStatus.active := by
      have := hmem.2
      unfold isActive at this
      exact of_decide_eq_true this
    exact hs.active_inflight t hmem.1 hact
  have hnd : ((s.queue.filter isActive).map Task.id).Nodup :=
    hs.ids_nodup.sublist (List.Sublist.map _ (List.filter_sublist _))
  have hle := (List.subperm_of_subset hnd hsub).length_le
  rw [List.length_map] at hle
  rw [h1, hs.active_count]
  exact hle

theorem controllers_count_active {s : QState} (hs : Inv0 s) {t : Task}
    (ht : t ∈ s.queue) (hact : t.status = TStatus.active) :
    s.controllers.count t.id = 1 := by
  rw [hs.controllers_eq]
  exact List.count_eq_one_of_mem hs.inflight_nodup (hs.active_inflight t ht hact)

theorem controllers_count_inactive {s : QState} (hs : Inv0 s) {t : Task}
    (ht : t ∈ s.queue) (hact : t.status ≠ TStatus.active) :
    s.controllers.count t.id = 0 := by
  rw [hs.controllers_eq, List.count_eq_zero]
  intro hin
  obtain ⟨t', ht'mem, ht'id, ht'act⟩ := hs.inflight_active t.id hin
  have heq : t' = t := task_eq_of_id_eq hs.ids_nodup ht'mem ht ht'id
  exact hact (heq ▸ ht'act)

/-- Modelled from the spec's scheduling clause: "Whenever a slot is free,
the scheduler picks the first task in FIFO order whose status is `pending`
or `interrupted` and promotes it to `active`" — promoting first-ready tasks
for (at most) the `k` free slots. -/
def promoteReadyFIFO (q : List Task) : Nat → List Task
  | 0 => q
  | k + 1 =>
    match q.find? isReady with
    | none => q
    | some t =>
      promoteReadyFIFO
        (updateTask q t.id fun x => { x with status := TStatus.active }) k

theorem processQueueFuel_queue_eq (fuel : Nat) :
    ∀ (s : QState) (k : Nat), s.queue.countP isReady ≤ fuel →
      k = maxConcurrent - s.activeTasks →
      (processQueueFuel fuel s).queue = promoteReadyFIFO s.queue k := by
  induction fuel with
  | zero =>
    intro s k hcount _
    have hz : s.queue.countP isReady = 0 := Nat.le_zero.1 hcount
    have hnone : s.queue.find? isReady = none :=
      List.find?_eq_none.2 (List.countP_eq_zero.1 hz)
    cases k with
    | zero => rfl
    | succ k =>
      rw [promoteReadyFIFO, hnone]
      rfl
  | succ fuel ih =>
    intro s k hcount hk
    rw [processQueueFuel]
    by_cases hge : s.activeTasks ≥ maxConcurrent
    · rw [if_pos hge]
      have hk0 : k = 0 := by omega
      rw [hk0]
      rfl
    · rw [if_neg hge]
      cases hf : s.queue.find? isReady with
      | none =>
        cases k with
        | zero => rfl
        | succ k => rw [promoteReadyFIFO, hf]
      | some t =>
        obtain ⟨k', rfl⟩ : ∃ k', k = k' + 1 :=
          ⟨k - 1, by omega⟩
        rw [promoteReadyFIFO, hf]
        have htmem : t ∈ s.queue := List.mem_of_find?_eq_some hf
        have htready : isReady t = true := List.find?_some hf
        refine ih (promote s t.id) k' ?_ ?_
        · have := countP_updateTask_lt
            (fun x => { x with status := TStatus.active }) isReady
            (fun x => isReady_active_false x) htmem htready rfl
          exact Nat.lt_succ_iff.1 (Nat.lt_of_lt_of_le this hcount)
        · show k' = maxConcurrent - (s.activeTasks + 1)
          omega

/-- A one-task persisted queue used to instantiate the scheduler theorems. -/
def demoSaved : List Task :=
  [{ id := 1, status := TStatus.pending, transferredSize := 0, totalSize := 100,
     progress := 0, speed := 0, retryCount := 0, error := none }]

def demoLoaded : QState := loadQueue demoSaved

/-- The (unique) task of `demoLoaded` after startup recovery has promoted it. -/
def demoActiveTask : Task :=
  { id := 1, status := TStatus.active, transferredSize := 0, totalSize := 100,
    progress := 0, speed := 0, retryCount := 0, error := none }

/-- A queue with one task of every status, to instantiate `clearCompleted`. -/
def demoMixed : QState :=
  { queue := [
      { id := 1, status := TStatus.pending, transferredSize := 0, totalSize := 1,
        progress := 0, speed := 0, retryCount := 0, error := none },
      { id := 2, status := TStatus.active, transferredSize := 0, totalSize := 1,
        progress := 0, speed := 0, retryCount := 0, error := none },
      { id := 3, status := TStatus.completed, transferredSize := 1, totalSize := 1,
        progress := 100, speed := 0, retryCount := 0, error := none },
      { id := 4, status := TStatus.failed, transferredSize := 0, totalSize := 1,
        progress := 0, speed := 0, retryCount := 4, error := some "boom" },
      { id := 5, status := TStatus.cancelled, transferredSize := 0, totalSize := 1,
        progress := 0, speed := 0, retryCount := 0, error := none },
      { id := 6, status := TStatus.interrupted, transferredSize := 0, totalSize := 1,
        progress := 0, speed := 0, retryCount := 0, error := none }]
    activeTasks := 1, controllers := [2], inflight := [2], persisted := [] }

def demoInterruptedTask : Task :=
  { id := 6, status := TStatus.interrupted, transferredSize := 0, totalSize := 1,
    progress := 0, speed := 0, retryCount := 0, error := none }

end TransferManager

open TransferManager in
/-- C2: for every sequence of queue operations, at most `maxConcurrent = 3`
tasks are `active` at any moment and the scheduler never rests with a free
slot while a ready (pending/interrupted) task waits; an active task has
exactly one registered controller and an inactive task has none (so no task
is promoted twice concurrently); and `processQueue` promotes exactly the
first tasks in FIFO order whose status is pending or interrupted, one per
free slot. -/
theorem scheduler_cap_fifo_unique_controllers :
    (∀ s : QState, Reachable s →
        countActive s.queue ≤ maxConcurrent
        ∧ (s.activeTasks < maxConcurrent → ∀ t ∈ s.queue, isReady t = false)
        ∧ (∀ t ∈ s.queue, t.status = TStatus.active →
            s.controllers.count t.id = 1)
        ∧ (∀ t ∈ s.queue, t.status ≠ TStatus.active →
            s.controllers.count t.id = 0))
    ∧ (∀ s : QState, (processQueue s).queue
        = promoteReadyFIFO s.queue (maxConcurrent - s.activeTasks)) := by
  constructor
  · intro s hreach
    have hi := reachable_inv hreach
    exact ⟨Nat.le_trans (countActive_le_activeTasks hi.1) hi.1.cap, hi.2,
      fun t ht hact => controllers_count_active hi.1 ht hact,
      fun t ht hact => controllers_count_inactive hi.1 ht hact⟩
  · intro s
    exact processQueueFuel_queue_eq _ s _ (Nat.le_refl _) rfl

open TransferManager in
theorem scheduler_cap_fifo_unique_controllers_witness :
    countActive (loadQueue demoSaved).queue ≤ maxConcurrent :=
  (scheduler_cap_fifo_unique_controllers.1 _
    (Reachable.init demoSaved (by decide))).1

open TransferManager in
/-- C3 (code bug): `cancelTask` does set the status to `cancelled`, removes
the controller and persists — but the abort rejection of the in-flight
dispatcher operation then runs `runTask`'s generic `catch` block, which
counts the cancellation as a failure: the retry counter is incremented, the
error becomes "Retry 1/3: Aborted", and the scheduler immediately
re-promotes the task, so it ends up `active` again instead of staying
`cancelled`. -/
theorem cancel_counted_as_failure_code_bug :
    ((cancelTask demoLoaded 1).queue.map Task.status = [TStatus.cancelled]
      ∧ (cancelTask demoLoaded 1).controllers = []
      ∧ (cancelTask demoLoaded 1).persisted = (cancelTask demoLoaded 1).queue)
    ∧ ((applyEvent demoLoaded (QEvent.cancel 1)).queue.map Task.status
          = [TStatus.active]
      ∧ (applyEvent demoLoaded (QEvent.cancel 1)).queue.map Task.retryCount = [1]
      ∧ (applyEvent demoLoaded (QEvent.cancel 1)).queue.map Task.error
          = [some "Retry 1/3: Aborted"]
      ∧ (applyEvent demoLoaded (QEvent.cancel 1)).queue.map Task.status
          ≠ [TStatus.cancelled]) := by
  decide

open TransferManager in
/-- C6: when the dispatcher operation of an active task fails, the retry
counter is incremented; if the new count is at most 3 the task is re-queued
as `pending` with the error annotated "Retry k/3: …" (so the scheduler picks
it up again); if the count exceeds 3 the task becomes `failed` with speed 0. -/
theorem retry_on_dispatcher_error {s : QState} {t : Task} (msg : String)
    (hnd : (s.queue.map Task.id).Nodup)
    (ht : t ∈ s.queue) (_hact : t.status = TStatus.active) :
    ∀ t' ∈ (settleErrStep s t.id msg).queue, t'.id = t.id →
      t'.retryCount = t.retryCount + 1
      ∧ (t.retryCount + 1 ≤ maxRetries →
          t'.status = TStatus.pending
          ∧ t'.error = some (retryText (t.retryCount + 1) msg))
      ∧ (t.retryCount + 1 > maxRetries →
          t'.status = TStatus.failed ∧ t'.speed = 0 ∧ t'.error = some msg) := by
  intro t' hmem hid
  have hmem' : t' ∈ updateTask s.queue t.id (errUpdate msg) := hmem
  obtain ⟨t₀, ht₀, heq⟩ := mem_updateTask hmem'
  by_cases h : t₀.id = t.id
  · have ht₀t : t₀ = t := task_eq_of_id_eq hnd ht₀ ht h
    rw [if_pos h, ht₀t] at heq
    subst heq
    by_cases hrc : t.retryCount + 1 ≤ maxRetries
    · refine ⟨?_, fun _ => ⟨?_, ?_⟩, fun hgt => absurd hrc (by omega)⟩ <;>
        simp [errUpdate, hrc]
    · refine ⟨?_, fun hle => absurd hle hrc, fun _ => ⟨?_, ?_, ?_⟩⟩ <;>
        simp [errUpdate, hrc]
  · rw [if_neg h] at heq
    rw [heq] at hid
    exact absurd hid h

open TransferManager in
theorem retry_on_dispatcher_error_witness :
    (errUpdate "boom" demoActiveTask).retryCount
      = demoActiveTask.retryCount + 1 :=
  (@retry_on_dispatcher_error demoLoaded demoActiveTask "boom"
    (by decide) (by decide) rfl
    (errUpdate "boom" demoActiveTask) (by decide) (by decide)).1

open TransferManager in
/-- C10: `clearCompleted` removes exactly the tasks whose status is
completed, failed, cancelled or interrupted (so resumable interrupted tasks
are discarded along with terminal ones) and keeps every pending and active
task, in their original order (the remaining queue is the order-preserving
filter of the old one). -/
theorem clear_completed_removes_terminal_and_interrupted :
    ∀ s : QState,
      (clearCompleted s).queue
        = s.queue.filter (fun t =>
            t.status = TStatus.pending ∨ t.status = TStatus.active)
      ∧ (clearCompleted s).queue.Sublist s.queue
      ∧ (∀ t ∈ s.queue,
          (t.status = TStatus.completed ∨ t.status = TStatus.failed ∨
            t.status = TStatus.cancelled ∨ t.status = TStatus.interrupted) →
          t ∉ (clearCompleted s).queue)
      ∧ (∀ t ∈ s.queue,
          (t.status = TStatus.pending ∨ t.status = TStatus.active) →
          t ∈ (clearCompleted s).queue) := by
  intro s
  have hfe : (clearCompleted s).queue
      = s.queue.filter (fun t =>
          t.status = TStatus.pending ∨ t.status = TStatus.active) := by
    show s.queue.filter _ = s.queue.filter _
    apply List.filter_congr
    intro t _
    cases t.status <;> rfl
  refine ⟨hfe, ?_, ?_, ?_⟩
  · rw [hfe]
    exact List.filter_sublist _
  · intro t _ hstatus hmem
    rw [hfe] at hmem
    have := (List.mem_filter.1 hmem).2
    have hpa : t.status = TStatus.pending ∨ t.status = TStatus.active :=
      of_decide_eq_true this
    rcases hstatus with h | h | h | h <;> rw [h] at hpa <;>
      rcases hpa with h' | h' <;> cases h'
  · intro t hmem hstatus
    rw [hfe]
    exact List.mem_filter.2 ⟨hmem, decide_eq_true hstatus⟩

open TransferManager in
theorem clear_completed_removes_terminal_and_interrupted_witness :
    demoInterruptedTask ∉ (clearCompleted demoMixed).queue :=
  (clear_completed_removes_terminal_and_interrupted demoMixed).2.2.1
    demoInterruptedTask (by decide) (by decide)

/-! ### EncryptionManager (src/electron/handlers/encryption.ts)

JS strings are embedded as `List Char`.  The AES-256-GCM core lives in
`node:crypto`; it is abstracted as a `GcmModel` (for the fixed unlocked
key), and the blob-layer `encrypt`/`decrypt` below are the code under
verification.  A thrown error is `none`. -/

namespace EncryptionManager

/-- The AES-256-GCM core for the (fixed) unlocked key: `enc iv p` is the
hex ciphertext of plaintext `p` under IV `iv`, `tag iv p` the hex auth tag
of that encryption, and `dec iv tag c` deciphers and verifies, failing
(`none`, the thrown auth error) on a mismatch. -/
structure GcmModel where
  enc : List Char → List Char → List Char
  tag : List Char → List Char → List Char
  dec : List Char → List Char → List Char → Option (List Char)

/-- Properties the real AES-256-GCM core has: ciphertext and tag are hex
(hence contain no ':'), the ciphertext is empty iff the plaintext is (GCM
ciphertext length equals plaintext length), the 16-byte tag is nonempty,
deciphering with the matching tag inverts encryption, and a decrypted
plaintext is never longer than the hex ciphertext it came from (the UTF-16
string has at most one unit per plaintext byte, and the hex ciphertext has
two characters per byte). -/
def GoodGcm (G : GcmModel) : Prop :=
  (∀ iv p, ':' ∉ G.enc iv p)
  ∧ (∀ iv p, ':' ∉ G.tag iv p)
  ∧ (∀ iv p, G.enc iv p = [] ↔ p = [])
  ∧ (∀ iv p, G.tag iv p ≠ [])
  ∧ (∀ iv p, G.dec iv (G.tag iv p) (G.enc iv p) = some p)
  ∧ (∀ iv t c p, G.dec iv t c = some p → p.length ≤ c.length)

/-- `encrypt`: produce `hex(iv):hex(tag):hex(ciphertext)`.  The fresh
random IV (`randomBytes(16)`, hex) is a parameter. -/
def encrypt (G : GcmModel) (iv text : List Char) : List Char :=
  iv ++ ':' :: (G.tag iv text ++ ':' :: G.enc iv text)

/-- `decrypt`: destructure `blob.split(':')` into the first three parts
(`undefined` and `""` are both falsy, modelled by the `[]` default); if any
is falsy, return the blob unchanged (legacy plaintext path); otherwise
decipher and verify the tag. -/
def decrypt (G : GcmModel) (blob : List Char) : Option (List Char) :=
  let parts := splitOnChar ':' blob
  let ivHex := parts.getD 0 []
  let authTagHex := parts.getD 1 []
  let encryptedText := parts.getD 2 []
  if ivHex = [] ∨ authTagHex = [] ∨ encryptedText = [] then some blob
  else G.dec ivHex authTagHex encryptedText

/-! A concrete executable cipher satisfying `GoodGcm`, used to evaluate the
blob layer at concrete inputs (it encodes each character as six hex digits
and uses a constant tag; only the `GoodGcm` properties matter). -/

def hexChar (n : Nat) : Char :=
  if n < 10 then Char.ofNat (48 + n) else Char.ofNat (87 + n)

def char6 (c : Char) : List Char :=
  [hexChar (c.toNat / 16 ^ 5 % 16), hexChar (c.toNat / 16 ^ 4 % 16),
   hexChar (c.toNat / 16 ^ 3 % 16), hexChar (c.toNat / 16 ^ 2 % 16),
   hexChar (c.toNat / 16 % 16), hexChar (c.toNat % 16)]

def toyEnc (p : List Char) : List Char := p.flatMap char6

def unhex (c : Char) : Nat :=
  if c.toNat ≥ 87 then c.toNat - 87 else c.toNat - 48

def toyDec : List Char → Option (List Char)
  | [] => some []
  | a :: b :: c :: d :: e :: f :: rest =>
    (toyDec rest).map fun tail =>
      Char.ofNat (unhex a * 16 ^ 5 + unhex b * 16 ^ 4 + unhex c * 16 ^ 3 +
        unhex d * 16 ^ 2 + unhex e * 16 + unhex f) :: tail
  | [_] | [_, _] | [_, _, _] | [_, _, _, _] | [_, _, _, _, _] => none

def toyTag : List Char := ['a', 'a']

def toyGcm : GcmModel :=
  { enc := fun _ p => toyEnc p
    tag := fun _ _ => toyTag
    dec := fun _ t c => if t = toyTag then toyDec c else none }

/-- Stands in for the 32-hex-char random IV. -/
def demoIv : List Char := ['0', '0']

end EncryptionManager

namespace EncryptionManager

theorem hexChar_lt_16_ne_colon {n : Nat} (h : n < 16) : hexChar n ≠ ':' := by
  interval_cases n <;> decide

theorem colon_not_mem_char6 (c : Char) : ':' ∉ char6 c := by
  intro hmem
  simp only [char6, List.mem_cons, List.not_mem_nil, or_false] at hmem
  rcases hmem with h | h | h | h | h | h <;>
    exact hexChar_lt_16_ne_colon (Nat.mod_lt _ (by norm_num)) h.symm

theorem colon_not_mem_toyEnc (p : List Char) : ':' ∉ toyEnc p := by
  intro hmem
  obtain ⟨c, _, hc⟩ := List.mem_flatMap.1 hmem
  exact colon_not_mem_char6 c hc

theorem unhex_hexChar {n : Nat} (h : n < 16) : unhex (hexChar n) = n := by
  interval_cases n <;> decide

theorem toyDec_toyEnc (p : List Char) : toyDec (toyEnc p) = some p := by
  induction p with
  | nil => rfl
  | cons c p ih =>
    have he : toyEnc (c :: p) = char6 c ++ toyEnc p := by
      simp [toyEnc]
    rw [he]
    show toyDec (hexChar (c.toNat / 16 ^ 5 % 16) :: hexChar (c.toNat / 16 ^ 4 % 16)
      :: hexChar (c.toNat / 16 ^ 3 % 16) :: hexChar (c.toNat / 16 ^ 2 % 16)
      :: hexChar (c.toNat / 16 % 16) :: hexChar (c.toNat % 16) :: toyEnc p)
      = some (c :: p)
    rw [toyDec, ih]
    have h16 : ∀ m : Nat, m % 16 < 16 := fun m => Nat.mod_lt _ (by norm_num)
    rw [unhex_hexChar (h16 _), unhex_hexChar (h16 _), unhex_hexChar (h16 _),
      unhex_hexChar (h16 _), unhex_hexChar (h16 _), unhex_hexChar (h16 _)]
    have hval : c.toNat < 1114112 := by
      have h := c.valid
      have he : c.toNat = c.val.toNat := rfl
      rcases h with h | ⟨_, h⟩ <;> omega
    have hrec : c.toNat / 16 ^ 5 % 16 * 16 ^ 5 + c.toNat / 16 ^ 4 % 16 * 16 ^ 4
        + c.toNat / 16 ^ 3 % 16 * 16 ^ 3 + c.toNat / 16 ^ 2 % 16 * 16 ^ 2
        + c.toNat / 16 % 16 * 16 + c.toNat % 16 = c.toNat := by
      omega
    rw [hrec, Char.ofNat_toNat]
    rfl

theorem toyDec_length (c : List Char) :
    ∀ p, toyDec c = some p → p.length ≤ c.length := by
  induction c using toyDec.induct with
  | case1 =>
    intro p h
    simp [toyDec] at h
    simp [← h]
  | case2 a b c d e f rest ih =>
    intro p h
    rw [toyDec] at h
    cases hr : toyDec rest with
    | none =>
      rw [hr] at h
      cases h
    | some tail =>
      rw [hr] at h
      simp only [Option.map_some', Option.some.injEq] at h
      have := ih tail hr
      rw [← h]
      simp only [List.length_cons]
      omega
  | case3 a =>
    intro p h
    simp [toyDec] at h
  | case4 a b =>
    intro p h
    simp [toyDec] at h
  | case5 a b c =>
    intro p h
    simp [toyDec] at h
  | case6 a b c d =>
    intro p h
    simp [toyDec] at h
  | case7 a b c d e =>
    intro p h
    simp [toyDec] at h

theorem toyGcm_good : GoodGcm toyGcm := by
  refine ⟨?_, ?_, ?_, ?_, ?_, ?_⟩
  · intro iv p
    exact colon_not_mem_toyEnc p
  · intro iv p
    show ':' ∉ toyTag
    decide
  · intro iv p
    show toyEnc p = [] ↔ p = []
    cases p with
    | nil => simp [toyEnc]
    | cons c p => simp [toyEnc, char6]
  · intro iv p
    show toyTag ≠ []
    decide
  · intro iv p
    show (if toyTag = toyTag then toyDec (toyEnc p) else none) = some p
    rw [if_pos rfl]
    exact toyDec_toyEnc p
  · intro iv t c p hp
    have hp' : (if t = toyTag then toyDec c else none) = some p := hp
    by_cases ht : t = toyTag
    · rw [if_pos ht] at hp'
      exact toyDec_length c p hp'
    · rw [if_neg ht] at hp'
      cases hp'

end EncryptionManager

open EncryptionManager in
/-- C4 counterexample: round-trip fails on the empty plaintext.  The blob
`hex(iv):hex(tag):` has an empty third segment (a GCM ciphertext of ""
is ""), so `decrypt` takes the legacy path and returns the blob unchanged
instead of "".  Moreover a string that is not of the three-part hex form
but still splits into three nonempty segments (here "z:z:z") is fed to the
cipher and throws instead of being returned unchanged. -/
theorem crypto_roundtrip_counterexample :
    decrypt toyGcm (encrypt toyGcm demoIv []) = some (encrypt toyGcm demoIv [])
    ∧ decrypt toyGcm (encrypt toyGcm demoIv []) ≠ some []
    ∧ decrypt toyGcm ['z', ':', 'z', ':', 'z'] = none := by
  decide

open EncryptionManager in
/-- C4 (amended): while unlocked, `decrypt (encrypt p) = p` for every
NONEMPTY plaintext `p` (including ones containing ':'), but
`decrypt (encrypt "")` returns the blob unchanged; and `decrypt s = s`
holds EXACTLY for the strings `s` whose first three ':'-split segments are
not all nonempty (in particular for every `s` with no ':' at all, the
legacy plaintext path) — when all three segments are nonempty they are fed
to the cipher core, whose result (a thrown failure, or a plaintext shorter
than the blob) is never the blob itself.  This holds for every cipher core
with the AES-GCM properties (`GoodGcm`). -/
theorem crypto_roundtrip_amended (G : GcmModel) (hG : GoodGcm G)
    (iv : List Char) (hiv : ':' ∉ iv) (hivne : iv ≠ []) :
    (∀ p : List Char, p ≠ [] → decrypt G (encrypt G iv p) = some p)
    ∧ decrypt G (encrypt G iv []) = some (encrypt G iv [])
    ∧ (∀ s : List Char, decrypt G s = some s ↔
        ((splitOnChar ':' s).getD 0 [] = []
          ∨ (splitOnChar ':' s).getD 1 [] = []
          ∨ (splitOnChar ':' s).getD 2 [] = []))
    ∧ (∀ s : List Char, (splitOnChar ':' s).getD 0 [] ≠ [] →
        (splitOnChar ':' s).getD 1 [] ≠ [] →
        (splitOnChar ':' s).getD 2 [] ≠ [] →
        decrypt G s = G.dec ((splitOnChar ':' s).getD 0 [])
          ((splitOnChar ':' s).getD 1 []) ((splitOnChar ':' s).getD 2 []))
    ∧ (∀ s : List Char, ':' ∉ s → decrypt G s = some s) := by
  obtain ⟨hencHex, htagHex, hencNil, htagNe, hdec, hdecLen⟩ := hG
  have hsplit : ∀ p, splitOnChar ':' (encrypt G iv p)
      = iv :: G.tag iv p :: [G.enc iv p] := by
    intro p
    unfold encrypt
    rw [splitOnChar_append ':' iv _ hiv,
      splitOnChar_append ':' (G.tag iv p) _ (htagHex iv p),
      splitOnChar_of_not_mem ':' _ (hencHex iv p)]
  have hmech : ∀ s : List Char, (splitOnChar ':' s).getD 0 [] ≠ [] →
      (splitOnChar ':' s).getD 1 [] ≠ [] →
      (splitOnChar ':' s).getD 2 [] ≠ [] →
      decrypt G s = G.dec ((splitOnChar ':' s).getD 0 [])
        ((splitOnChar ':' s).getD 1 []) ((splitOnChar ':' s).getD 2 []) := by
    intro s h0 h1 h2
    unfold decrypt
    rw [if_neg (by push_neg; exact ⟨h0, h1, h2⟩)]
  refine ⟨?_, ?_, ?_, hmech, ?_⟩
  · intro p hp
    unfold decrypt
    rw [hsplit p]
    have hencNe : G.enc iv p ≠ [] := fun h => hp ((hencNil iv p).1 h)
    rw [if_neg (by
      simp only [List.getD]
      push_neg
      exact ⟨by simpa using hivne, by simpa using htagNe iv p,
        by simpa using hencNe⟩)]
    exact hdec iv p
  · unfold decrypt
    rw [hsplit []]
    rw [if_pos (by
      simp only [List.getD]
      right; right
      simpa using (hencNil iv []).2 rfl)]
  · intro s
    constructor
    · intro hds
      by_contra hall
      push_neg at hall
      obtain ⟨h0, h1, h2⟩ := hall
      rw [hmech s h0 h1 h2] at hds
      have hlen := hdecLen _ _ _ _ hds
      have hlt := splitOnChar_third_lt ':' s h0 h1 h2
      omega
    · intro hcond
      unfold decrypt
      rw [if_pos hcond]
  · intro s hs
    unfold decrypt
    rw [splitOnChar_of_not_mem ':' s hs]
    cases s with
    | nil => rfl
    | cons c cs =>
      rw [if_pos (by simp [List.getD])]

open EncryptionManager in
theorem crypto_roundtrip_amended_witness :
    decrypt toyGcm (encrypt toyGcm demoIv ['s', ':', 't']) = some ['s', ':', 't']
    ∧ decrypt toyGcm ['a', ':', ':', 'b'] = some ['a', ':', ':', 'b']
    ∧ decrypt toyGcm ['z', ':', 'z', ':', 'z'] = none
    ∧ decrypt toyGcm ['p', 'l', 'a', 'i', 'n'] = some ['p', 'l', 'a', 'i', 'n'] := by
  have h := crypto_roundtrip_amended toyGcm toyGcm_good demoIv (by decide) (by decide)
  refine ⟨h.1 ['s', ':', 't'] (by decide), ?_, ?_, ?_⟩
  · exact (h.2.2.1 ['a', ':', ':', 'b']).2 (by decide)
  · rw [h.2.2.2.1 ['z', ':', 'z', ':', 'z'] (by decide) (by decide) (by decide)]
    decide
  · exact h.2.2.2.2 ['p', 'l', 'a', 'i', 'n'] (by decide)

/-! ### Profile store (`getProfiles` / `saveProfile`)

Fields irrelevant to the claims (folder, favourite, key path, region,
bucket, endpoint) are omitted; the three secret fields and the id are
modelled exactly. -/

namespace ProfileStore

open EncryptionManager

structure Profile where
  id : List Char
  name : List Char
  host : List Char
  port : Nat
  username : List Char
  password : Option (List Char)
  passphrase : Option (List Char)
  secretAccessKey : Option (List Char)
deriving DecidableEq, Repr

/-- `p.password ? encryptionManager.decrypt(p.password) : undefined` — a
missing or empty (falsy) field passes through as `undefined`; decryption
may throw (outer `none`). -/
def decField (G : GcmModel) (v : Option (List Char)) :
    Option (Option (List Char)) :=
  match v with
  | none => some none
  | some s => if s = [] then some none else (decrypt G s).map some

def decryptProfile (G : GcmModel) (p : Profile) : Option Profile := do
  let pw ← decField G p.password
  let pp ← decField G p.passphrase
  let sk ← decField G p.secretAccessKey
  some { p with password := pw, passphrase := pp, secretAccessKey := sk }

/-- `getProfiles`: read the on-disk list; while the crypto store is
unlocked, transparently decrypt the three secret fields of every profile. -/
def getProfiles (G : GcmModel) (unlocked : Bool) (disk : List Profile) :
    Option (List Profile) :=
  if unlocked then disk.mapM (decryptProfile G) else some disk

/-- `if (profileToSave.password) profileToSave.password = encrypt(...)` —
truthy fields are encrypted in place, falsy ones left as they are. -/
def encField (G : GcmModel) (iv : List Char) (v : Option (List Char)) :
    Option (List Char) :=
  match v with
  | none => none
  | some s => if s = [] then some s else some (encrypt G iv s)

def encryptProfileFields (G : GcmModel) (iv : List Char) (p : Profile) :
    Profile :=
  { p with password := encField G iv p.password,
           passphrase := encField G iv p.passphrase,
           secretAccessKey := encField G iv p.secretAccessKey }

/-- `profiles.findIndex(p => p.id === profile.id)`, then in-place
replacement of the first match, else push. -/
def replaceById : List Profile → Profile → List Profile
  | [], p => [p]
  | q :: qs, p => if q.id = p.id then p :: qs else q :: replaceById qs p

/-- `saveProfile`: load the stored list through `getProfiles` (which, while
unlocked, decrypts every profile's secrets), encrypt the secret fields of
only the profile being saved, splice it in, and write the whole list back.
The result is the new on-disk list. -/
def saveProfile (G : GcmModel) (iv : List Char) (unlocked : Bool)
    (disk : List Profile) (profile : Profile) : Option (List Profile) := do
  let profiles ← getProfiles G unlocked disk
  let toSave := if unlocked then encryptProfileFields G iv profile else profile
  some (replaceById profiles toSave)

def pwA : List Char := ['p', 'w', 'A']

def profileA : Profile :=
  { id := ['A'], name := ['A'], host := ['h'], port := 22, username := ['u'],
    password := some (encrypt toyGcm demoIv pwA), passphrase := none,
    secretAccessKey := none }

def profileB : Profile :=
  { id := ['B'], name := ['B'], host := ['h'], port := 22, username := ['u'],
    password := some (encrypt toyGcm demoIv ['p', 'w', 'B']), passphrase := none,
    secretAccessKey := none }

def demoDisk : List Profile := [profileA, profileB]

/-- The profile-B record the UI hands to `saveProfile` (plaintext secret). -/
def newB : Profile :=
  { id := ['B'], name := ['B'], host := ['h'], port := 22, username := ['u'],
    password := some ['n', 'e', 'w', 'B'], passphrase := none,
    secretAccessKey := none }

end ProfileStore

open EncryptionManager ProfileStore in
/-- C5 (code bug): while unlocked, saving profile B writes profile A's
password to disk as the decrypted plaintext `pwA` — `saveProfile` starts
from the `getProfiles` result (all secrets decrypted) and re-encrypts only
the profile being saved.  The plaintext contains no ':' (so it is not in
the three-part encrypted form) and differs from the encrypted blob that was
stored before the save. -/
theorem save_profile_writes_other_secrets_plaintext :
    (saveProfile toyGcm demoIv true demoDisk newB).map
        (fun l => l.map Profile.password)
      = some [some pwA, some (encrypt toyGcm demoIv ['n', 'e', 'w', 'B'])]
    ∧ ':' ∉ pwA
    ∧ some pwA ≠ profileA.password := by
  decide

/-! ### SSHHandler.getWithProgress (src/electron/handlers/ssh.ts, the live
signal-aware handler at lines 815-844)

The handler calls `sftp.fastGet(remotePath, localPath, { step })`:
`fastGet` downloads the WHOLE remote file into `localPath` (truncating
whatever was there) and the `step` callback receives cumulative
`(totalTransferred, chunk, totalSize)`; the handler forwards
`onProgress(totalTransferred + offset, chunk, totalSize)`.  The remote file
is a byte list given as the chunks the transport delivers. -/

namespace SSHHandler

structure GetResult where
  localContent : List Nat
  progress : List (Nat × Nat)
deriving DecidableEq, Repr

/-- `getWithProgress remoteChunks localBefore offset`: the remote file is
`remoteChunks.flatten`.  The prior local content (`localBefore`) and the
`offset` do not influence the I/O — `fastGet` re-downloads everything from
byte 0 into a truncated local file; the `offset` only shifts the reported
progress counts (mirroring `totalTransferred + offset` in the source). -/
def getWithProgress (remoteChunks : List (List Nat)) (_localBefore : List Nat)
    (offset : Nat) : GetResult :=
  { localContent := remoteChunks.flatten
    progress := (cumLens remoteChunks 0).map
      fun k => (k + offset, remoteChunks.flatten.length) }

/-- Modelled from the spec's resume contract for downloads: "open the local
file in append mode and start the remote read at byte `offset`", i.e. the
local file afterwards is its prior content followed by the remote bytes
from `offset` onward. -/
def specAppendResume (remote localBefore : List Nat) (offset : Nat) :
    List Nat :=
  localBefore ++ remote.drop offset

end SSHHandler

open SSHHandler in
/-- C1 counterexample: a resumed download with offset 1 of the two-byte
remote file `[1, 2]` over a local file holding `[9]` (the byte the first
attempt wrote).  Append semantics (the claim) would leave `[9, 2]`; the
code leaves `[1, 2]` — the whole file is re-downloaded from byte 0 over a
truncated local file.  The final progress report is `(3, 2)`: transferred
exceeds the reported total size by the offset. -/
theorem sftp_resume_counterexample :
    (getWithProgress [[1], [2]] [9] 1).localContent = [1, 2]
    ∧ specAppendResume [1, 2] [9] 1 = [9, 2]
    ∧ (getWithProgress [[1], [2]] [9] 1).localContent
        ≠ specAppendResume [1, 2] [9] 1
    ∧ (getWithProgress [[1], [2]] [9] 1).progress.getLast? = some (3, 2) := by
  decide

open SSHHandler in
/-- C1 (amended): for every SFTP download started via `getWithProgress`
with a nonzero resume offset, the backend re-downloads the ENTIRE remote
file from byte 0, truncating (not appending to) the local file — so the
local file afterwards equals the full remote content (hence has exactly S
bytes, but none of them taken from the first attempt), independent of the
prior local content and of the offset; the progress reports are shifted up
by the offset, the last one reporting `S + offset` transferred of a total
size `S`. -/
theorem sftp_resume_redownloads_whole_file (remoteChunks : List (List Nat))
    (lb lb' : List Nat) (offset : Nat) (hne : remoteChunks ≠ []) :
    (getWithProgress remoteChunks lb offset).localContent
        = remoteChunks.flatten
    ∧ (getWithProgress remoteChunks lb offset).localContent
        = (getWithProgress remoteChunks lb' 0).localContent
    ∧ (getWithProgress remoteChunks lb offset).localContent.length
        = remoteChunks.flatten.length
    ∧ (getWithProgress remoteChunks lb offset).progress.getLast?
        = some (remoteChunks.flatten.length + offset,
                remoteChunks.flatten.length) := by
  refine ⟨rfl, rfl, rfl, ?_⟩
  show ((cumLens remoteChunks 0).map
      fun k => (k + offset, remoteChunks.flatten.length)).getLast? = _
  rw [List.getLast?_map, cumLens_getLast? remoteChunks 0 hne]
  simp

open SSHHandler in
theorem sftp_resume_redownloads_whole_file_witness :
    (getWithProgress [[1], [2]] [9] 1).localContent = [1, 2]
    ∧ (getWithProgress [[1], [2]] [9] 1).progress.getLast? = some (3, 2) := by
  have h := sftp_resume_redownloads_whole_file [[1], [2]] [9] [7] 1 (by decide)
  exact ⟨by rw [h.1]; decide, by rw [h.2.2.2]; decide⟩

/-! ### S3Handler.putWithProgress (src/electron/handlers/s3.ts 464-509) -/

namespace S3Handler

structure PutResult where
  key : List Char
  body : List Nat
  partSize : Nat
  queueSize : Nat
  progressLoaded : List Nat
  progressTotal : Nat
deriving DecidableEq, Repr

/-- `putWithProgress localFile remotePath offset`: the key strips a leading
'/'; `Body: createReadStream(localPath)` reads the whole file from byte 0;
the multipart `Upload` is configured with `queueSize: 4` and
`partSize: 5MB`, so the SDK's `progress.loaded` values are the cumulative
part sums of the full body; the handler forwards
`progress.loaded + (offset ? 0 : 0)` (the source's literal expression,
which is 0 either way). -/
def putWithProgress (localFile : List Nat) (remotePath : List Char)
    (offset : Nat) : PutResult :=
  { key := match remotePath with
      | '/' :: rest => rest
      | p => p
    body := localFile
    partSize := 5 * 1024 * 1024
    queueSize := 4
    progressLoaded := (cumLens (chunkListP (5 * 1024 * 1024 - 1) localFile) 0).map
      fun loaded => loaded + (if offset ≠ 0 then 0 else 0)
    progressTotal := localFile.length }

end S3Handler

open S3Handler in
/-- C7: an S3 upload with `offset > 0` ignores the offset entirely: the
result is identical to the call with offset 0, the whole local file is the
multipart body (5 MiB parts, queue depth 4), every reported transferred
count stays within the file size (not shifted by the offset), and the
first report is the first part's size, counting from 0. -/
theorem s3_put_ignores_offset (localFile : List Nat) (remotePath : List Char)
    (offset : Nat) (_hpos : 0 < offset) :
    putWithProgress localFile remotePath offset
      = putWithProgress localFile remotePath 0
    ∧ (putWithProgress localFile remotePath offset).body = localFile
    ∧ (putWithProgress localFile remotePath offset).partSize = 5 * 1024 * 1024
    ∧ (putWithProgress localFile remotePath offset).queueSize = 4
    ∧ (∀ x ∈ (putWithProgress localFile remotePath offset).progressLoaded,
        x ≤ localFile.length)
    ∧ (localFile ≠ [] →
        (putWithProgress localFile remotePath offset).progressLoaded.head?
          = some (min (5 * 1024 * 1024) localFile.length)) := by
  refine ⟨?_, rfl, rfl, rfl, ?_, ?_⟩
  · unfold putWithProgress
    simp [ite_self]
  · intro x hx
    simp only [putWithProgress, ite_self, List.mem_map] at hx
    obtain ⟨l, hl, rfl⟩ := hx
    have := cumLens_le (chunkListP (5 * 1024 * 1024 - 1) localFile) 0 l hl
    rw [chunkListP_flatten] at this
    omega
  · intro hne
    cases localFile with
    | nil => exact absurd rfl hne
    | cons x xs =>
      show ((cumLens (chunkListP (5 * 1024 * 1024 - 1) (x :: xs)) 0).map _).head?
        = _
      rw [chunkListP]
      show (((0 + ((x :: xs).take (5 * 1024 * 1024 - 1 + 1)).length) :: _).map _).head?
        = _
      rw [List.map_cons, List.head?_cons]
      simp only [List.length_take, ite_self, Nat.zero_add, Nat.add_zero]

open S3Handler in
theorem s3_put_ignores_offset_witness :
    putWithProgress [1, 2, 3] ['/', 'k'] 7 = putWithProgress [1, 2, 3] ['/', 'k'] 0
    ∧ (putWithProgress [1, 2, 3] ['/', 'k'] 7).progressLoaded.head? = some 3 := by
  have h := s3_put_ignores_offset [1, 2, 3] ['/', 'k'] 7 (by decide)
  refine ⟨h.1, ?_⟩
  rw [h.2.2.2.2.2 (by decide)]
  decide

/-! ### SyncEngine.compare (src/electron/handlers/watcher.ts 98-167)

The two listings are given as entry lists; timestamps are in milliseconds
(`Date.prototype.getTime`).  `localPath`/`remotePath` of a diff are plain
path joins of the directory arguments with the name and are omitted from
the record. -/

namespace SyncEngine

structure LEntry where
  name : String
  isDir : Bool
  size : Nat
  mtimeMs : Int
deriving DecidableEq, Repr

structure REntry where
  name : String
  isDirectory : Bool
  size : Nat
  updatedAtMs : Int
deriving DecidableEq, Repr

inductive DiffStatus
  | onlyLocal | onlyRemote | newerLocal | newerRemote | same
deriving DecidableEq, Repr

structure SyncDiff where
  name : String
  status : DiffStatus
  localSize : Option Nat
  remoteSize : Option Nat
  localMtimeMs : Option Int
  remoteMtimeMs : Option Int
deriving DecidableEq, Repr

/-- A JavaScript `Map` as an insertion-ordered association list. -/
abbrev RMap := List (String × REntry)

/-- `Map.prototype.set`: overwrite in place when the key exists, else
append. -/
def mapSet (m : RMap) (k : String) (v : REntry) : RMap :=
  if m.any (fun kv => kv.1 = k) then
    m.map fun kv => if kv.1 = k then (k, v) else kv
  else m ++ [(k, v)]

/-- `new Map(remoteFiles.map(f => [f.name, f]))`. -/
def jsMapOf (remoteFiles : List REntry) : RMap :=
  remoteFiles.foldl (fun m f => mapSet m f.name f) []

/-- `Map.prototype.get`. -/
def mapGet (m : RMap) (k : String) : Option REntry :=
  (m.find? (fun kv => kv.1 = k)).map (·.2)

/-- `Map.prototype.delete` (a Map holds at most one entry per key). -/
def mapDelete (m : RMap) (k : String) : RMap :=
  m.eraseP (fun kv => kv.1 = k)

/-- The time/size classification for a name present on both sides,
verbatim from the source: strict 1 s-tolerance comparisons, with the
size-difference fallback to `newer-local`. -/
def classify (localSize : Nat) (localTime : Int) (r : REntry) : DiffStatus :=
  let isNewerLocal := localTime > r.updatedAtMs + 1000
  let isNewerRemote := r.updatedAtMs > localTime + 1000
  let isSameSize := localSize = r.size
  if isNewerLocal then DiffStatus.newerLocal
  else if isNewerRemote then DiffStatus.newerRemote
  else if ¬ isSameSize then DiffStatus.newerLocal
  else DiffStatus.same

def matchedDiff (l : LEntry) (r : REntry) : SyncDiff :=
  { name := l.name, status := classify l.size l.mtimeMs r,
    localSize := some l.size, remoteSize := some r.size,
    localMtimeMs := some l.mtimeMs, remoteMtimeMs := some r.updatedAtMs }

def onlyLocalDiff (l : LEntry) : SyncDiff :=
  { name := l.name, status := DiffStatus.onlyLocal,
    localSize := some l.size, remoteSize := none,
    localMtimeMs := some l.mtimeMs, remoteMtimeMs := none }

def onlyRemoteDiff (name : String) (r : REntry) : SyncDiff :=
  { name := name, status := DiffStatus.onlyRemote,
    localSize := none, remoteSize := some r.size,
    localMtimeMs := none, remoteMtimeMs := some r.updatedAtMs }

/-- The first loop of `compare`: walk the local entries in order, skipping
directories; look up the remote twin by name, consuming it from the map. -/
def compareLocals : List LEntry → RMap → List SyncDiff × RMap
  | [], m => ([], m)
  | l :: ls, m =>
    if l.isDir then compareLocals ls m
    else
      match mapGet m l.name with
      | none =>
        let (ds, m') := compareLocals ls m
        (onlyLocalDiff l :: ds, m')
      | some r =>
        let (ds, m') := compareLocals ls (mapDelete m l.name)
        (matchedDiff l r :: ds, m')

/-- `SyncEngine.compare` over the two listings: the local-side diffs in
listing order, then the unconsumed remote entries that are not
directories as `only-remote`. -/
def compare (localFiles : List LEntry) (remoteFiles : List REntry) :
    List SyncDiff :=
  let (diffs, remaining) := compareLocals localFiles (jsMapOf remoteFiles)
  diffs ++ (remaining.filter fun kv => ¬ kv.2.isDirectory).map
    fun kv => onlyRemoteDiff kv.1 kv.2

/-- The names of the non-directory local entries. -/
def fileNames (ls : List LEntry) : List String :=
  (ls.filter fun l => ¬ l.isDir).map LEntry.name

theorem fileNames_cons_dir {l : LEntry} (ls : List LEntry)
    (h : l.isDir = true) : fileNames (l :: ls) = fileNames ls := by
  unfold fileNames
  rw [List.filter_cons]
  simp [h]

theorem fileNames_cons_file {l : LEntry} (ls : List LEntry)
    (h : l.isDir = false) :
    fileNames (l :: ls) = l.name :: fileNames ls := by
  unfold fileNames
  rw [List.filter_cons]
  simp [h]

theorem mapSet_of_fresh (m : RMap) (k : String) (v : REntry)
    (h : ∀ kv ∈ m, kv.1 ≠ k) : mapSet m k v = m ++ [(k, v)] := by
  unfold mapSet
  rw [if_neg]
  intro hany
  obtain ⟨kv, hkv, hk⟩ := List.any_eq_true.1 hany
  exact h kv hkv (of_decide_eq_true hk)

theorem jsMapOf_aux (rs : List REntry) :
    ∀ acc : RMap, (∀ kv ∈ acc, ∀ r ∈ rs, kv.1 ≠ r.name) →
    (rs.map REntry.name).Nodup →
    rs.foldl (fun m f => mapSet m f.name f) acc
      = acc ++ rs.map fun r => (r.name, r) := by
  induction rs with
  | nil =>
    intro acc _ _
    simp
  | cons r rs ih =>
    intro acc hacc hnd
    have hnd' := List.nodup_cons.1 (show (_ :: _).Nodup from hnd)
    rw [List.foldl_cons,
      mapSet_of_fresh acc r.name r
        (fun kv hkv => hacc kv hkv r (List.mem_cons_self r rs)),
      ih (acc ++ [(r.name, r)]) ?_ hnd'.2]
    · simp
    · intro kv hkv r' hr'
      rcases List.mem_append.1 hkv with h1 | h2
      · exact hacc kv h1 r' (List.mem_cons_of_mem r hr')
      · simp only [List.mem_singleton] at h2
        rw [h2]
        intro heq
        have heq' : r.name = r'.name := heq
        exact hnd'.1 (heq' ▸ List.mem_map_of_mem REntry.name hr')

theorem jsMapOf_eq (rs : List REntry) (hnr : (rs.map REntry.name).Nodup) :
    jsMapOf rs = rs.map fun r => (r.name, r) := by
  unfold jsMapOf
  simpa using jsMapOf_aux rs [] (fun kv hkv => absurd hkv (List.not_mem_nil kv)) hnr

theorem find?_name_unique (rs : List REntry)
    (hnr : (rs.map REntry.name).Nodup) {r : REntry} (hr : r ∈ rs) :
    rs.find? (fun x => x.name = r.name) = some r := by
  induction rs with
  | nil => cases hr
  | cons x rs ih =>
    have hnd' := List.nodup_cons.1 (show (_ :: _).Nodup from hnr)
    rcases List.mem_cons.1 hr with rfl | hmem
    · exact List.find?_cons_of_pos _ (by simp)
    · have hx : ¬ (x.name = r.name) := by
        intro heq
        exact hnd'.1 (heq ▸ List.mem_map_of_mem REntry.name hmem)
      rw [List.find?_cons_of_neg _ (by simpa using hx)]
      exact ih hnd'.2 hmem

theorem mapGet_canonical (rs : List REntry) (k : String) :
    mapGet (rs.map fun r => (r.name, r)) k = rs.find? fun r => r.name = k := by
  unfold mapGet
  rw [List.find?_map]
  cases h : rs.find? ((fun kv => decide (kv.1 = k)) ∘ fun r => (r.name, r)) with
  | none =>
    have h' : rs.find? (fun r => decide (r.name = k)) = none := h
    rw [h']
    rfl
  | some r =>
    have h' : rs.find? (fun r => decide (r.name = k)) = some r := h
    rw [h']
    rfl

theorem mapGet_mapDelete_ne (m : RMap) (k k' : String) (hne : ¬ k' = k) :
    mapGet (mapDelete m k) k' = mapGet m k' := by
  induction m with
  | nil => rfl
  | cons kv m ih =>
    unfold mapDelete at ih ⊢
    rw [List.eraseP_cons]
    by_cases hk : kv.1 = k
    · rw [decide_eq_true hk, cond_true]
      unfold mapGet
      rw [List.find?_cons_of_neg _ (by
        simp only [decide_eq_true_eq]
        rw [hk]
        exact fun h => hne h.symm)]
    · rw [decide_eq_false hk, cond_false]
      unfold mapGet at ih ⊢
      rw [List.find?_cons, List.find?_cons]
      cases hkv : (decide (kv.1 = k') : Bool) with
      | true => rfl
      | false => exact ih

theorem mapDelete_eq_filter (m : RMap) (k : String)
    (hm : (m.map Prod.fst).Nodup) :
    mapDelete m k = m.filter fun kv => ¬ kv.1 = k := by
  induction m with
  | nil => rfl
  | cons kv m ih =>
    have hnd' := List.nodup_cons.1 (show (_ :: _).Nodup from hm)
    unfold mapDelete at ih ⊢
    rw [List.eraseP_cons, List.filter_cons]
    by_cases hk : kv.1 = k
    · rw [decide_eq_true hk]
      simp only [cond_true, hk, decide_not, decide_eq_true_eq]
      rw [if_neg (by simp)]
      symm
      apply List.filter_eq_self.2
      intro kv' hkv'
      have : kv'.1 ≠ kv.1 := by
        intro heq
        exact hnd'.1 (heq ▸ List.mem_map_of_mem Prod.fst hkv')
      simp [hk ▸ this]
    · rw [decide_eq_false hk]
      simp only [cond_false]
      rw [if_pos (by simpa using hk), ih hnd'.2]

theorem mapDelete_keys_nodup (m : RMap) (k : String)
    (hm : (m.map Prod.fst).Nodup) :
    ((mapDelete m k).map Prod.fst).Nodup :=
  hm.sublist (List.Sublist.map _ (List.eraseP_sublist m))

theorem filterMap_congr_mem {α β : Type} {l : List α} {f g : α → Option β}
    (h : ∀ a ∈ l, f a = g a) : l.filterMap f = l.filterMap g := by
  induction l with
  | nil => rfl
  | cons a l ih =>
    rw [List.filterMap_cons, List.filterMap_cons, h a (List.mem_cons_self a l),
      ih fun a ha => h a (List.mem_cons_of_mem _ ha)]

theorem mapGet_none_iff (m : RMap) (k : String) :
    mapGet m k = none ↔ ∀ kv ∈ m, ¬ kv.1 = k := by
  unfold mapGet
  rw [Option.map_eq_none', List.find?_eq_none]
  constructor
  · intro h kv hkv
    have := h kv hkv
    simpa using this
  · intro h kv hkv
    simpa using h kv hkv

/-- What the local loop computes: under distinct names, each local file
yields one diff looked up in the ORIGINAL map, and the remaining map is the
original minus the local file names. -/
theorem compareLocals_spec (ls : List LEntry) :
    ∀ m : RMap, (m.map Prod.fst).Nodup → (ls.map LEntry.name).Nodup →
    (compareLocals ls m).1 = ls.filterMap (fun l =>
        if l.isDir then none
        else some (match mapGet m l.name with
          | none => onlyLocalDiff l
          | some r => matchedDiff l r))
    ∧ (compareLocals ls m).2 = m.filter fun kv => ¬ kv.1 ∈ fileNames ls := by
  induction ls with
  | nil =>
    intro m _ _
    refine ⟨rfl, ?_⟩
    symm
    apply List.filter_eq_self.2
    intro kv _
    simp [fileNames]
  | cons l ls ih =>
    intro m hm hl
    have hl' := List.nodup_cons.1 (show (_ :: _).Nodup from hl)
    by_cases hdir : l.isDir = true
    · have hstep : compareLocals (l :: ls) m = compareLocals ls m := by
        rw [compareLocals, if_pos hdir]
      obtain ⟨h1, h2⟩ := ih m hm hl'.2
      rw [hstep]
      refine ⟨?_, ?_⟩
      · rw [h1]
        simp [List.filterMap_cons, hdir]
      · rw [h2, fileNames_cons_dir ls hdir]
    · have hdirf : l.isDir = false := Bool.eq_false_iff.2 hdir
      cases hget : mapGet m l.name with
      | none =>
        have hstep : compareLocals (l :: ls) m
            = (onlyLocalDiff l :: (compareLocals ls m).1,
               (compareLocals ls m).2) := by
          rw [compareLocals, if_neg hdir, hget]
        obtain ⟨h1, h2⟩ := ih m hm hl'.2
        rw [hstep]
        refine ⟨?_, ?_⟩
        · show onlyLocalDiff l :: (compareLocals ls m).1 = _
          rw [h1]
          simp [List.filterMap_cons, hdirf, hget]
        · show (compareLocals ls m).2 = _
          rw [h2]
          apply List.filter_congr
          intro kv hkv
          have hne := (mapGet_none_iff m l.name).1 hget kv hkv
          simp [fileNames_cons_file ls hdirf, List.mem_cons, hne]
      | some r =>
        have hstep : compareLocals (l :: ls) m
            = (matchedDiff l r :: (compareLocals ls (mapDelete m l.name)).1,
               (compareLocals ls (mapDelete m l.name)).2) := by
          rw [compareLocals, if_neg hdir, hget]
        obtain ⟨h1, h2⟩ :=
          ih (mapDelete m l.name) (mapDelete_keys_nodup m l.name hm) hl'.2
        rw [hstep]
        refine ⟨?_, ?_⟩
        · show matchedDiff l r :: (compareLocals ls (mapDelete m l.name)).1 = _
          have hcg : ls.filterMap (fun l' =>
                if l'.isDir then none
                else some (match mapGet (mapDelete m l.name) l'.name with
                  | none => onlyLocalDiff l'
                  | some r => matchedDiff l' r))
              = ls.filterMap (fun l' =>
                if l'.isDir then none
                else some (match mapGet m l'.name with
                  | none => onlyLocalDiff l'
                  | some r => matchedDiff l' r)) := by
            apply filterMap_congr_mem
            intro l' hl'mem
            have hne : ¬ l'.name = l.name := by
              intro heq
              exact hl'.1 (heq ▸ List.mem_map_of_mem LEntry.name hl'mem)
            rw [mapGet_mapDelete_ne m l.name l'.name hne]
          rw [h1, hcg]
          simp [List.filterMap_cons, hdirf, hget]
        · show (compareLocals ls (mapDelete m l.name)).2 = _
          rw [h2, mapDelete_eq_filter m l.name hm, List.filter_filter]
          apply List.filter_congr
          intro kv _
          simp only [fileNames_cons_file ls hdirf, List.mem_cons]
          rcases Decidable.em (kv.1 = l.name) with he | he <;>
            rcases Decidable.em (kv.1 ∈ fileNames ls) with hf | hf <;>
              simp [he, hf]

/-- Local test listing, after the spec's seed scenario 6. -/
def aLocal : LEntry := { name := "a.txt", isDir := false, size := 100, mtimeMs := 0 }

def cLocal : LEntry := { name := "c.txt", isDir := false, size := 5, mtimeMs := 0 }

def aRemote : REntry :=
  { name := "a.txt", isDirectory := false, size := 100, updatedAtMs := 2000 }

def bRemote : REntry :=
  { name := "b.txt", isDirectory := false, size := 7, updatedAtMs := 0 }

def subRemote : REntry :=
  { name := "sub", isDirectory := true, size := 0, updatedAtMs := 0 }

end SyncEngine

open SyncEngine in
/-- C8: for every pair of listings with distinct names on each side —
a local file with no same-named remote entry is classified `only-local`; a
remote file with no same-named local file is `only-remote`; a name present
on both sides is classified from the 1 s time tolerance (ties with unequal
sizes fall back to `newer-local`, a side more than 1 s ahead wins); and
every diff entry is for a non-directory entry on at least one side
(directories themselves are skipped). -/
theorem sync_compare_classification (locals : List LEntry)
    (remotes : List REntry)
    (hnl : (locals.map LEntry.name).Nodup)
    (hnr : (remotes.map REntry.name).Nodup) :
    (∀ l ∈ locals, l.isDir = false → (∀ r ∈ remotes, r.name ≠ l.name) →
        onlyLocalDiff l ∈ SyncEngine.compare locals remotes)
    ∧ (∀ r ∈ remotes, r.isDirectory = false →
        (∀ l ∈ locals, l.isDir = false → l.name ≠ r.name) →
        onlyRemoteDiff r.name r ∈ SyncEngine.compare locals remotes)
    ∧ (∀ l ∈ locals, ∀ r ∈ remotes, l.isDir = false → r.name = l.name →
        matchedDiff l r ∈ SyncEngine.compare locals remotes
        ∧ ((l.mtimeMs - r.updatedAtMs).natAbs ≤ 1000 → l.size = r.size →
            (matchedDiff l r).status = DiffStatus.same)
        ∧ ((l.mtimeMs - r.updatedAtMs).natAbs ≤ 1000 → l.size ≠ r.size →
            (matchedDiff l r).status = DiffStatus.newerLocal)
        ∧ (l.mtimeMs > r.updatedAtMs + 1000 →
            (matchedDiff l r).status = DiffStatus.newerLocal)
        ∧ (r.updatedAtMs > l.mtimeMs + 1000 →
            (matchedDiff l r).status = DiffStatus.newerRemote))
    ∧ (∀ d ∈ SyncEngine.compare locals remotes,
        (∃ l ∈ locals, l.isDir = false ∧ l.name = d.name)
        ∨ (∃ r ∈ remotes, r.isDirectory = false ∧ r.name = d.name)) := by
  have hM : jsMapOf remotes = remotes.map fun r => (r.name, r) :=
    jsMapOf_eq remotes hnr
  have hMk : ((jsMapOf remotes).map Prod.fst).Nodup := by
    rw [hM, List.map_map]
    exact hnr
  obtain ⟨hdiffs, hrem⟩ := compareLocals_spec locals (jsMapOf remotes) hMk hnl
  have hcomp : SyncEngine.compare locals remotes
      = (compareLocals locals (jsMapOf remotes)).1
        ++ ((compareLocals locals (jsMapOf remotes)).2.filter
            fun kv => ¬ kv.2.isDirectory).map fun kv =>
              onlyRemoteDiff kv.1 kv.2 := rfl
  refine ⟨?_, ?_, ?_, ?_⟩
  · intro l hl hdirf hfresh
    have hget : mapGet (jsMapOf remotes) l.name = none := by
      rw [hM, mapGet_canonical, List.find?_eq_none]
      intro r hr
      simpa using hfresh r hr
    rw [hcomp]
    apply List.mem_append_left
    rw [hdiffs]
    apply List.mem_filterMap.2
    refine ⟨l, hl, ?_⟩
    rw [if_neg (by simp [hdirf]), hget]
  · intro r hr hdirf hfresh
    rw [hcomp]
    apply List.mem_append_right
    apply List.mem_map.2
    refine ⟨(r.name, r), ?_, rfl⟩
    apply List.mem_filter.2
    refine ⟨?_, by simpa using hdirf⟩
    rw [hrem]
    apply List.mem_filter.2
    refine ⟨by rw [hM]; exact List.mem_map_of_mem _ hr, ?_⟩
    have hnotin : ¬ (r.name, r).1 ∈ fileNames locals := by
      intro hmem
      obtain ⟨l, hlmem, hlname⟩ := List.mem_map.1 hmem
      have hlfile := (List.mem_filter.1 hlmem).2
      exact hfresh l (List.mem_filter.1 hlmem).1
        (by simpa using hlfile) hlname
    simpa using hnotin
  · intro l hl r hr hdirf hname
    have hget : mapGet (jsMapOf remotes) l.name = some r := by
      rw [hM, mapGet_canonical, ← hname]
      exact find?_name_unique remotes hnr hr
    refine ⟨?_, ?_, ?_, ?_, ?_⟩
    · rw [hcomp]
      apply List.mem_append_left
      rw [hdiffs]
      apply List.mem_filterMap.2
      refine ⟨l, hl, ?_⟩
      rw [if_neg (by simp [hdirf]), hget]
    · intro htol hsize
      show classify l.size l.mtimeMs r = DiffStatus.same
      unfold classify
      rw [if_neg (by omega), if_neg (by omega), if_neg (by simp [hsize])]
    · intro htol hsize
      show classify l.size l.mtimeMs r = DiffStatus.newerLocal
      unfold classify
      rw [if_neg (by omega), if_neg (by omega), if_pos (by simp [hsize])]
    · intro hgt
      show classify l.size l.mtimeMs r = DiffStatus.newerLocal
      unfold classify
      rw [if_pos hgt]
    · intro hgt
      show classify l.size l.mtimeMs r = DiffStatus.newerRemote
      unfold classify
      rw [if_neg (by omega), if_pos hgt]
  · intro d hd
    rw [hcomp] at hd
    rcases List.mem_append.1 hd with hleft | hright
    · rw [hdiffs] at hleft
      obtain ⟨l, hlmem, heq⟩ := List.mem_filterMap.1 hleft
      by_cases hdir : l.isDir = true
      · rw [if_pos hdir] at heq
        cases heq
      · have hdirf : l.isDir = false := Bool.eq_false_iff.2 hdir
        rw [if_neg hdir] at heq
        left
        refine ⟨l, hlmem, hdirf, ?_⟩
        cases hget : mapGet (jsMapOf remotes) l.name with
        | none =>
          rw [hget] at heq
          cases heq
          rfl
        | some r =>
          rw [hget] at heq
          cases heq
          rfl
    · obtain ⟨kv, hkv, heq⟩ := List.mem_map.1 hright
      have hkv1 := List.mem_filter.1 hkv
      have hkv2 := hkv1.1
      rw [hrem] at hkv2
      have hkv3 := (List.mem_filter.1 hkv2).1
      rw [hM] at hkv3
      obtain ⟨r, hrmem, hkveq⟩ := List.mem_map.1 hkv3
      right
      refine ⟨r, hrmem, ?_, ?_⟩
      · have := hkv1.2
        rw [← hkveq] at this
        simpa using this
      · rw [← heq, ← hkveq]
        rfl

open SyncEngine in
theorem sync_compare_classification_witness :
    onlyLocalDiff cLocal ∈ SyncEngine.compare [aLocal, cLocal] [aRemote, bRemote, subRemote]
    ∧ onlyRemoteDiff "b.txt" bRemote
        ∈ SyncEngine.compare [aLocal, cLocal] [aRemote, bRemote, subRemote]
    ∧ (matchedDiff aLocal aRemote).status = DiffStatus.newerRemote := by
  have h := sync_compare_classification [aLocal, cLocal] [aRemote, bRemote, subRemote]
    (by decide) (by decide)
  refine ⟨?_, ?_, ?_⟩
  · exact h.1 cLocal (by decide) (by decide) (by decide)
  · exact h.2.1 bRemote (by decide) (by decide) (by decide)
  · exact (h.2.2.1 aLocal (by decide) aRemote (by decide) (by decide)
      (by decide)).2.2.2.2 (by decide)

/-! ### External-edit bridge (`remote:edit-external` in src/electron/main.ts)

The watcher callback for the downloaded temp file: on a 'change' event,
when the `isUploading` re-entrancy flag is clear, it sets the flag, waits a
FIXED 100 ms (`setTimeout`, not a quiescence debounce), reads the file,
uploads it through the dispatcher, emits `edit-status`, and clears the
flag in `finally`.  A change event observed while the flag is set is
dropped.  JavaScript runs the callback's synchronous prefix (flag test and
set) atomically, so the induced transition system is: `change` = an
observed fs.watch change event, `finish` = completion (uploaded or error)
of the in-flight delay+read+upload sequence. -/

namespace EditBridge

inductive EditEvent
  | change | finish
deriving DecidableEq, Repr

structure EditState where
  isUploading : Bool
  uploads : Nat
deriving DecidableEq, Repr

def editStep (s : EditState) : EditEvent → EditState
  | EditEvent.change =>
    if s.isUploading then s
    else { isUploading := true, uploads := s.uploads + 1 }
  | EditEvent.finish => { s with isUploading := false }

def editRun (evs : List EditEvent) : EditState :=
  evs.foldl editStep { isUploading := false, uploads := 0 }

def countChanges (evs : List EditEvent) : Nat :=
  evs.countP fun e => e = EditEvent.change

end EditBridge

open EditBridge in
/-- C9 counterexample: the trace change, change, finish — the second change
arrives while the first upload is still in flight and is dropped by the
re-entrancy flag, so two settled changes produce only one upload, refuting
"each settled change produces exactly one new upload". -/
theorem edit_bridge_counterexample :
    (editRun [EditEvent.change, EditEvent.change, EditEvent.finish]).uploads = 1
    ∧ countChanges [EditEvent.change, EditEvent.change, EditEvent.finish] = 2
    ∧ (editRun [EditEvent.change, EditEvent.change, EditEvent.finish]).uploads
        ≠ countChanges [EditEvent.change, EditEvent.change, EditEvent.finish] := by
  decide

open EditBridge in
/-- C9 (amended): an upload is never started while a previous upload of the
same file is in flight — a change event observed mid-upload is dropped by
the re-entrancy flag and leaves the state unchanged (zero new uploads) —
and a change event observed while idle starts exactly one new upload
(after a fixed 100 ms delay, not a quiescence debounce). -/
theorem edit_bridge_no_overlap (p : List EditEvent) :
    ((editRun p).isUploading = true →
      editRun (p ++ [EditEvent.change]) = editRun p)
    ∧ ((editRun p).isUploading = false →
      (editRun (p ++ [EditEvent.change])).uploads = (editRun p).uploads + 1
      ∧ (editRun (p ++ [EditEvent.change])).isUploading = true) := by
  have hstep : editRun (p ++ [EditEvent.change])
      = editStep (editRun p) EditEvent.change := by
    unfold editRun
    rw [List.foldl_append]
    rfl
  constructor
  · intro h
    rw [hstep]
    show (if (editRun p).isUploading then editRun p else _) = editRun p
    rw [if_pos h]
  · intro h
    rw [hstep]
    show ((if (editRun p).isUploading then editRun p else _).uploads = _)
      ∧ ((if (editRun p).isUploading then editRun p else _).isUploading = _)
    rw [if_neg (by rw [h]; simp)]
    exact ⟨rfl, rfl⟩

open EditBridge in
theorem edit_bridge_no_overlap_witness :
    editRun ([EditEvent.change] ++ [EditEvent.change]) = editRun [EditEvent.change]
    ∧ (editRun ([] ++ [EditEvent.change])).uploads = 1 := by
  refine ⟨(edit_bridge_no_overlap [EditEvent.change]).1 (by decide), ?_⟩
  rw [((edit_bridge_no_overlap []).2 (by decide)).1]
  decide
